import Mathlib

/-!
# thresh-wallet: the server-side wallet ledger (`src/server/wallet.go`)

A shallow embedding of the wallet ledger (`NewAddress`, `UpdateUnspents`,
`UpdateTxs`), the coin selector `Wallet.Unspents`, the fee estimator
`Wallet.SendFees` and the queries `Wallet.Balance` and `Wallet.Txs`, followed
by theorems about them.

Modelling conventions.

* Go's `uint64`, `uint32` and `int64` are `Nat`/`Int` with explicit wrap-around
  (`% uint64Size`, `% uint32Size`, `wrapInt64`) wherever the source performs
  arithmetic on them.
* The map `Wallet.Address` (`map[string]*Address`) is an association list; a
  `range` over the map visits the list in order.  Theorems quantify over every
  list, hence over every iteration order.
* `error` results are `Except Error _`; the two `fmt.Errorf` messages keep the
  values they format as constructor arguments.
* A run-time panic (nil pointer dereference, slice bounds out of range) is the
  result `none` of an `Option`.
* Mutexes are not modelled: every operation runs to completion on its own.
* The collaborators that live outside `wallet.go` (`createSharedAddress`,
  `createSvrChildPubKey`, `xcore.EstimateNormalSize`) are the fields of
  `Collaborators`; the library routine `sort.Slice` is a `SliceSorter`, and
  `SliceSorter.Valid` states the contract the library documents for it.
  Theorems hold for every valid sorter; concrete evaluations use the library's
  insertion sort.
-/

set_option linter.dupNamespace false

namespace ThreshWallet

/-! ## Machine integers -/

/-- Number of values of a Go `uint64`, that is `2 ^ 64`. -/
abbrev uint64Size : Nat := 18446744073709551616

/-- Number of values of a Go `uint32`, that is `2 ^ 32`. -/
abbrev uint32Size : Nat := 4294967296

/-- Two's-complement wrap of an integer into the range of a Go `int64`. -/
def wrapInt64 (x : Int) : Int :=
  (x + 9223372036854775808) % 18446744073709551616 - 9223372036854775808

/-- The Go conversion `uint64(x)` of an `int64` value. -/
def toUint64 (x : Int) : Nat :=
  (x % 18446744073709551616).toNat

/-! ## Data model -/

/-- The Go struct `SendFees`. -/
structure SendFees where
  Fees : Nat
  TotalValue : Nat
  SendableValue : Nat
  deriving DecidableEq, Repr

/-- The Go struct `Tx`. -/
structure Tx where
  Txid : String
  Fee : Int
  Value : Int
  Confirmed : Bool
  BlockTime : Int
  BlockHeight : Int
  deriving DecidableEq, Repr

/-- The Go struct `UTXO`. -/
structure UTXO where
  Pos : Nat
  Txid : String
  Vout : Nat
  Value : Nat
  Address : String
  Confirmed : Bool
  SvrPubKey : String
  Scriptpubkey : String
  deriving DecidableEq, Repr

/-- The Go struct `Balance`. -/
structure Balance where
  TotalBalance : Nat
  UnconfirmedBalance : Nat
  deriving DecidableEq, Repr

/-- The Go struct `Unspent`. -/
structure Unspent where
  Txid : String
  Vout : Nat
  Value : Nat
  Confirmed : Bool
  BlockTime : Nat
  BlockHeight : Nat
  Scriptpubkey : String
  deriving DecidableEq, Repr

/-- The Go struct `Address` (without its mutex).  The zero value of a Go struct
has a zero balance and nil slices. -/
structure Address where
  Pos : Nat
  Address : String
  Balance : Balance := ⟨0, 0⟩
  Txs : List Tx := []
  Unspents : List Unspent := []
  deriving DecidableEq, Repr

/-- The Go struct `Wallet` (without its mutex and its `Backup` record, which
`wallet.go` never reads).  `net` stands for the `*network.Network` handle. -/
structure Wallet where
  net : String := ""
  UID : String := ""
  DID : String := ""
  LastPos : Nat := 0
  Address : List (String × Address) := []
  SvrMasterPrvKey : String := ""
  CliMasterPubKey : String := ""
  deriving DecidableEq, Repr

/-- Errors returned by the wallet: an error handed back by a collaborator, and
the two messages built with `fmt.Errorf`:
`unpsents.suffient.req.amount[sendAmount].allbalance[balance]` and
`balace[totalValue].is.smaller.than.fees[fees]`. -/
inductive Error where
  | collaborator (err : String)
  | insufficient (sendAmount balance : Nat)
  | feesExceedBalance (totalValue fees : Nat)
  deriving DecidableEq, Repr

/-- Functions called by `wallet.go` and defined outside it.
`createSharedAddress pos svrMasterPrvKey cliMasterPubKey net typ`,
`createSvrChildPubKey pos svrMasterPrvKey net` and
`EstimateNormalSize inputs outputs` (an `int64`). -/
structure Collaborators where
  createSharedAddress : Nat → String → String → String → String → Except String String
  createSvrChildPubKey : Nat → String → String → Except String String
  EstimateNormalSize : Int → Int → Int

/-! ## `sort.Slice` -/

/-- The requirement `sort.Slice` puts on its `less` function: a strict weak
ordering (irreflexive, transitive, and transitive on "not less"). -/
structure StrictWeakOrdering {α : Type} (less : α → α → Bool) : Prop where
  irrefl : ∀ a, less a a = false
  trans : ∀ a b c, less a b = true → less b c = true → less a c = true
  negTrans : ∀ a b c, less a b = false → less b c = false → less a c = false

/-- An implementation of the library routine `sort.Slice`. -/
structure SliceSorter where
  sort : {α : Type} → (α → α → Bool) → List α → List α

/-- The contract the library documents for `sort.Slice`: the result is a
rearrangement of the input and, for a `less` that is a strict weak ordering, no
element is less than one before it.  The sort is not stable, so nothing else
is promised. -/
structure SliceSorter.Valid (S : SliceSorter) : Prop where
  perm : ∀ {α : Type} (less : α → α → Bool) (xs : List α), List.Perm (S.sort less xs) xs
  sorted : ∀ {α : Type} (less : α → α → Bool) (xs : List α), StrictWeakOrdering less →
    List.Pairwise (fun a b => less b a = false) (S.sort less xs)

/-- One step of the library's insertion sort, on the already sorted part held
last element first: `x` moves towards the front while `less x y`. -/
def insertBack {α : Type} (less : α → α → Bool) (x : α) : List α → List α
  | [] => [x]
  | y :: ys => if less x y then y :: insertBack less x ys else x :: y :: ys

/-- The insertion sort `sort.Slice` runs on short slices
(`for i := a+1; i < b; i++ { for j := i; j > a && less(j, j-1); j-- { swap(j, j-1) } }`). -/
def insertionSort {α : Type} (less : α → α → Bool) (xs : List α) : List α :=
  (xs.foldl (fun sortedRev x => insertBack less x sortedRev) []).reverse

/-- The library's insertion sort as a `SliceSorter`. -/
def insertionSorter : SliceSorter where
  sort := fun less xs => insertionSort less xs

/-! ## Operations of `wallet.go` -/

/-- `NewWallet`: an empty address map and zero values elsewhere. -/
def NewWallet : Wallet := {}

/-- Map lookup `w.Address[addr]`; `none` is Go's nil pointer. -/
def Wallet.lookup (w : Wallet) (addr : String) : Option ThreshWallet.Address :=
  w.Address.lookup addr

/-- Map assignment `m[key] = value`: replaces the entry of `key`, or adds one. -/
def mapSet (key : String) (value : Address) : List (String × Address) → List (String × Address)
  | [] => [(key, value)]
  | (k, v) :: rest => if k = key then (key, value) :: rest else (k, v) :: mapSet key value rest

/-- `Wallet.Addresses`: the keys of the address map. -/
def Wallet.Addresses (w : Wallet) : List String :=
  w.Address.map Prod.fst

/-- `Wallet.NewAddress`: derives the address at `LastPos`; on success stores a
fresh record under the derived string and increments `LastPos` (a `uint32`). -/
def Wallet.NewAddress (E : Collaborators) (w : Wallet) (typ : String) :
    Except Error ThreshWallet.Address × Wallet :=
  let pos := w.LastPos
  match E.createSharedAddress pos w.SvrMasterPrvKey w.CliMasterPubKey w.net typ with
  | .error err => (.error (.collaborator err), w)
  | .ok addr =>
    let address : ThreshWallet.Address := { Pos := pos, Address := addr }
    (.ok address,
      { w with Address := mapSet addr address w.Address, LastPos := (w.LastPos + 1) % uint32Size })

/-- The loop of `UpdateUnspents`: both accumulators are `uint64`. -/
def sumUnspents : List Unspent → Nat → Nat → Nat × Nat
  | [], balance, unconfirmedBalance => (balance, unconfirmedBalance)
  | unspent :: rest, balance, unconfirmedBalance =>
    let unconfirmedBalance' :=
      if !unspent.Confirmed then (unconfirmedBalance + unspent.Value) % uint64Size
      else unconfirmedBalance
    sumUnspents rest ((balance + unspent.Value) % uint64Size) unconfirmedBalance'

/-- The writes `UpdateUnspents` performs on the record it looked up. -/
def Address.setUnspents (address : ThreshWallet.Address) (unspents : List Unspent) :
    ThreshWallet.Address :=
  let sums := sumUnspents unspents 0 0
  { address with
      Unspents := unspents
      Balance := { TotalBalance := sums.1, UnconfirmedBalance := sums.2 } }

/-- Writes through the pointer stored under `addr`: the record of the first
entry with that key is replaced. -/
def mapModify (addr : String) (f : Address → Address) :
    List (String × Address) → List (String × Address)
  | [] => []
  | (k, v) :: rest => if k = addr then (k, f v) :: rest else (k, v) :: mapModify addr f rest

/-- `Wallet.UpdateUnspents`.  The source does not test the looked-up pointer:
for an unknown address it is nil and the call panics (`none`). -/
def Wallet.UpdateUnspents (w : Wallet) (addr : String) (unspents : List Unspent) :
    Option Wallet :=
  match w.lookup addr with
  | none => none
  | some _ => some { w with Address := mapModify addr (fun a => a.setUnspents unspents) w.Address }

/-- `Wallet.UpdateTxs`; panics (`none`) on an unknown address like `UpdateUnspents`. -/
def Wallet.UpdateTxs (w : Wallet) (addr : String) (txs : List Tx) : Option Wallet :=
  match w.lookup addr with
  | none => none
  | some _ => some { w with Address := mapModify addr (fun a => { a with Txs := txs }) w.Address }

/-- The loop of `Wallet.Balance`, with `uint64` accumulators. -/
def sumBalances : List (String × Address) → Balance → Balance
  | [], balance => balance
  | (_, addr) :: rest, balance =>
    sumBalances rest
      { TotalBalance := (balance.TotalBalance + addr.Balance.TotalBalance) % uint64Size
        UnconfirmedBalance :=
          (balance.UnconfirmedBalance + addr.Balance.UnconfirmedBalance) % uint64Size }

/-- `Wallet.Balance`. -/
def Wallet.Balance (w : Wallet) : ThreshWallet.Balance :=
  sumBalances w.Address ⟨0, 0⟩

/-- The inner loop of `Wallet.Unspents`: one key derivation and one appended
`UTXO` per unspent output of `addr`; a failed derivation ends the call. -/
def appendUnspents (E : Collaborators) (w : Wallet) (addr : Address) :
    List Unspent → List UTXO → Except Error (List UTXO)
  | [], utxos => .ok utxos
  | unspent :: rest, utxos =>
    match E.createSvrChildPubKey addr.Pos w.SvrMasterPrvKey w.net with
    | .error err => .error (.collaborator err)
    | .ok svrpubkey =>
      appendUnspents E w addr rest (utxos ++ [{
        Pos := addr.Pos
        Txid := unspent.Txid
        Vout := unspent.Vout
        Value := unspent.Value
        Address := addr.Address
        Confirmed := unspent.Confirmed
        SvrPubKey := svrpubkey
        Scriptpubkey := unspent.Scriptpubkey }])

/-- The outer loop of `Wallet.Unspents`: collects the candidates of every
address and adds up the stored total balances in a `uint64`. -/
def scanAddresses (E : Collaborators) (w : Wallet) :
    List (String × Address) → List UTXO → Nat → Except Error (List UTXO × Nat)
  | [], utxos, balance => .ok (utxos, balance)
  | (_, addr) :: rest, utxos, balance =>
    match appendUnspents E w addr addr.Unspents utxos with
    | .error err => .error err
    | .ok utxos' =>
      scanAddresses E w rest utxos' ((balance + addr.Balance.TotalBalance) % uint64Size)

/-- The comparison handed to `sort.Slice` by `Wallet.Unspents`: by value, descending. -/
def valueGreater (a b : UTXO) : Bool := decide (a.Value > b.Value)

/-- The final loop of `Wallet.Unspents` ("Patch"): adds the value to the
`uint64` running total, appends, and stops once the total reaches `sendAmount`. -/
def patch (sendAmount : Nat) : List UTXO → Nat → List UTXO → List UTXO
  | [], _, rsp => rsp
  | utxo :: rest, thresh, rsp =>
    let thresh' := (thresh + utxo.Value) % uint64Size
    let rsp' := rsp ++ [utxo]
    if thresh' ≥ sendAmount then rsp' else patch sendAmount rest thresh' rsp'

/-- `Wallet.Unspents`. -/
def Wallet.Unspents (E : Collaborators) (S : SliceSorter) (w : Wallet) (sendAmount : Nat) :
    Except Error (List UTXO) :=
  match scanAddresses E w w.Address [] 0 with
  | .error err => .error err
  | .ok (utxos, balance) =>
    if balance < sendAmount then .error (.insufficient sendAmount balance)
    else .ok (patch sendAmount (S.sort valueGreater utxos) 0 [])

/-- The fee of `Wallet.SendFees`:
`uint64((estsize * int64(feesPerKB)) / 1000)` with `int64` multiplication and
Go's truncating division. -/
def computeFees (E : Collaborators) (inputs : Nat) (feesPerKB : Int) : Nat :=
  let estsize := E.EstimateNormalSize (inputs : Int) (1 + 1)
  toUint64 (Int.tdiv (wrapInt64 (estsize * feesPerKB)) 1000)

/-- `Wallet.SendFees`. -/
def Wallet.SendFees (E : Collaborators) (S : SliceSorter) (w : Wallet) (sendValue : Nat)
    (feesPerKB : Int) : Except Error ThreshWallet.SendFees :=
  match w.Unspents E S sendValue with
  | .error err => .error err
  | .ok unspents =>
    let totalValue := w.Balance.TotalBalance
    let fees := computeFees E unspents.length feesPerKB
    if fees ≥ totalValue then .error (.feesExceedBalance totalValue fees)
    else
      let sendableValue :=
        if (sendValue + fees) % uint64Size > totalValue then totalValue - fees else sendValue
      .ok { Fees := fees, TotalValue := totalValue, SendableValue := sendableValue }

/-- The first loop of `Wallet.Txs`: `txs = append(txs, addr.Txs...)` for every address. -/
def collectTxs : List (String × Address) → List Tx → List Tx
  | [], txs => txs
  | (_, addr) :: rest, txs => collectTxs rest (txs ++ addr.Txs)

/-- The comparison handed to `sort.Slice` by `Wallet.Txs`: a pair with an
unconfirmed transaction is never "less"; two confirmed ones compare by block
time, descending. -/
def txLess (a b : Tx) : Bool :=
  if !a.Confirmed || !b.Confirmed then false else decide (a.BlockTime > b.BlockTime)

/-- The Go slice expression `xs[low:]`; `none` is the run-time panic
"slice bounds out of range". -/
def sliceFrom {α : Type} (xs : List α) (low : Int) : Option (List α) :=
  if 0 ≤ low ∧ low ≤ (xs.length : Int) then some (xs.drop low.toNat) else none

/-- The Go slice expression `xs[low:high]`; `none` is the run-time panic
"slice bounds out of range".  Go allows `high` up to the capacity; `Wallet.Txs`
evaluates this expression only with `high ≤ len(xs)`, where the bound by the
length used here and the bound by the capacity agree. -/
def sliceBetween {α : Type} (xs : List α) (low high : Int) : Option (List α) :=
  if 0 ≤ low ∧ low ≤ high ∧ high ≤ (xs.length : Int) then
    some ((xs.drop low.toNat).take (high - low).toNat)
  else none

/-- `Wallet.Txs`, with `offset` and `limit` Go `int`s (64 bits): the sum
`offset + limit` wraps around, and a slice expression out of range panics (`none`). -/
def Wallet.Txs (S : SliceSorter) (w : Wallet) (offset limit : Int) : Option (List Tx) :=
  let txs := S.sort txLess (collectTxs w.Address [])
  let size : Int := (txs.length : Int)
  if offset ≥ size then some []
  else if wrapInt64 (offset + limit) > size then sliceFrom txs offset
  else sliceBetween txs offset (wrapInt64 (offset + limit))

/-! ## Quantities the statements speak about -/

/-- Every unspent output held by the addresses of the map, in iteration order. -/
def heldUnspents : List (String × Address) → List Unspent
  | [] => []
  | (_, addr) :: rest => addr.Unspents ++ heldUnspents rest

/-- Sum of the values of a list of unspent outputs, as a natural number. -/
def unspentTotal (unspents : List Unspent) : Nat :=
  (unspents.map (fun u => u.Value)).sum

/-- Sum of the values of the unconfirmed entries of a list of unspent outputs. -/
def unconfirmedTotal (unspents : List Unspent) : Nat :=
  ((unspents.filter (fun u => !u.Confirmed)).map (fun u => u.Value)).sum

/-- Sum of the values of a list of selected outputs, as a natural number. -/
def utxoTotal (utxos : List UTXO) : Nat :=
  (utxos.map (fun u => u.Value)).sum

/-- Sum of the stored total balances of the addresses, as a natural number. -/
def storedTotal : List (String × Address) → Nat
  | [] => 0
  | (_, addr) :: rest => addr.Balance.TotalBalance + storedTotal rest

/-- Sum of the stored unconfirmed balances of the addresses, as a natural number. -/
def storedUnconfirmed : List (String × Address) → Nat
  | [] => 0
  | (_, addr) :: rest => addr.Balance.UnconfirmedBalance + storedUnconfirmed rest

/-- Wallet states reachable from `NewWallet` by calls of `NewAddress` (whether or
not the derivation succeeds), `UpdateUnspents` and `UpdateTxs` on known
addresses.  A Go map has no iteration order, so a reachable state may present
its entries in any order. -/
inductive Reachable (E : Collaborators) : Wallet → Prop where
  | newWallet : Reachable E NewWallet
  | newAddress (w : Wallet) (typ : String) : Reachable E w → Reachable E (w.NewAddress E typ).2
  | updateUnspents (w w' : Wallet) (addr : String) (unspents : List Unspent) :
      Reachable E w → w.UpdateUnspents addr unspents = some w' → Reachable E w'
  | updateTxs (w w' : Wallet) (addr : String) (txs : List Tx) :
      Reachable E w → w.UpdateTxs addr txs = some w' → Reachable E w'
  | reorder (w : Wallet) (addrs : List (String × Address)) :
      Reachable E w → List.Perm addrs w.Address → Reachable E { w with Address := addrs }

/-- Each address's stored balances are the `uint64` sums of its unspent outputs. -/
def BalancesRecomputed (addrs : List (String × Address)) : Prop :=
  ∀ p ∈ addrs,
    p.2.Balance.TotalBalance = unspentTotal p.2.Unspents % uint64Size
      ∧ p.2.Balance.UnconfirmedBalance = unconfirmedTotal p.2.Unspents % uint64Size

/-- The candidate `Wallet.Unspents` builds from an unspent output of `addr`, with
the server public key left blank. -/
def candidateOf (addr : Address) (unspent : Unspent) : UTXO :=
  { Pos := addr.Pos, Txid := unspent.Txid, Vout := unspent.Vout, Value := unspent.Value,
    Address := addr.Address, Confirmed := unspent.Confirmed, SvrPubKey := "",
    Scriptpubkey := unspent.Scriptpubkey }

/-- A selected output with its server public key blanked. -/
def UTXO.withoutKey (u : UTXO) : UTXO :=
  { u with SvrPubKey := "" }

/-- The candidates of every unspent output held by the addresses of the map, one
per occurrence, each with the `Pos` and address string of its address. -/
def heldCandidates : List (String × Address) → List UTXO
  | [] => []
  | (_, addr) :: rest => addr.Unspents.map (candidateOf addr) ++ heldCandidates rest

/-- A sequence of `NewAddress` calls, one per entry of `typs`: the results of
the calls in order and the final wallet state. -/
def newAddressRun (E : Collaborators) :
    Wallet → List String → List (Except Error Address) × Wallet
  | w, [] => ([], w)
  | w, typ :: rest =>
    let step := w.NewAddress E typ
    let run := newAddressRun E step.2 rest
    (step.1 :: run.1, run.2)

/-- The `Pos` values handed out by the successful calls of a run, in order. -/
def assignedPositions : List (Except Error Address) → List Nat
  | [] => []
  | .ok address :: rest => address.Pos :: assignedPositions rest
  | .error _ :: rest => assignedPositions rest

/-- The `Pos` values of the addresses of the map. -/
def positions (addrs : List (String × Address)) : List Nat :=
  addrs.map (fun p => p.2.Pos)

/-- Wallet states reachable from `NewWallet` like `Reachable`, with the number of
`NewAddress` calls made on the way. -/
inductive ReachableWithin (E : Collaborators) : Nat → Wallet → Prop where
  | newWallet : ReachableWithin E 0 NewWallet
  | newAddress (n : Nat) (w : Wallet) (typ : String) :
      ReachableWithin E n w → ReachableWithin E (n + 1) (w.NewAddress E typ).2
  | updateUnspents (n : Nat) (w w' : Wallet) (addr : String) (unspents : List Unspent) :
      ReachableWithin E n w → w.UpdateUnspents addr unspents = some w' → ReachableWithin E n w'
  | updateTxs (n : Nat) (w w' : Wallet) (addr : String) (txs : List Tx) :
      ReachableWithin E n w → w.UpdateTxs addr txs = some w' → ReachableWithin E n w'
  | reorder (n : Nat) (w : Wallet) (addrs : List (String × Address)) :
      ReachableWithin E n w → List.Perm addrs w.Address →
      ReachableWithin E n { w with Address := addrs }

/-- Server public-key derivation succeeds for every address of the list that
holds an unspent output: the derivations `Wallet.Unspents` performs. -/
def ScanDerivable (E : Collaborators) (w : Wallet) (addrs : List (String × Address)) : Prop :=
  ∀ p ∈ addrs, p.2.Unspents = []
    ∨ ∃ key, E.createSvrChildPubKey p.2.Pos w.SvrMasterPrvKey w.net = .ok key

/-- Each address's stored total balance is the sum of the values of its unspent
outputs (so that sum fits a `uint64`). -/
def Wallet.Consistent (w : Wallet) : Prop :=
  ∀ p ∈ w.Address, p.2.Balance.TotalBalance = unspentTotal p.2.Unspents

/-- Server public-key derivation succeeds for every address of the wallet. -/
def Wallet.KeysDerivable (E : Collaborators) (w : Wallet) : Prop :=
  ∀ p ∈ w.Address, ∃ key, E.createSvrChildPubKey p.2.Pos w.SvrMasterPrvKey w.net = .ok key

/-! ## Concrete collaborators and wallet states -/

/-- Collaborators for concrete evaluation: derivations that always succeed and
the usual size estimate `10 + 148 * inputs + 34 * outputs`. -/
def sampleCollaborators : Collaborators where
  createSharedAddress := fun pos _ _ _ _ =>
    match pos with
    | 0 => .ok "A"
    | 1 => .ok "B"
    | n => .ok (String.mk (List.replicate n 'C'))
  createSvrChildPubKey := fun _ _ _ => .ok "svrpubkey"
  EstimateNormalSize := fun inputs outputs => 10 + 148 * inputs + 34 * outputs

/-- An unspent output with the given value and confirmation flag. -/
def sampleUnspent (txid : String) (value : Nat) (confirmed : Bool) : Unspent :=
  { Txid := txid, Vout := 0, Value := value, Confirmed := confirmed,
    BlockTime := 0, BlockHeight := 0, Scriptpubkey := "" }

/-- The wallet of the specification's example: address `A` holds 5000
confirmed, address `B` holds 3000 unconfirmed. -/
def exampleWallet : Wallet :=
  { LastPos := 2
    Address :=
      [("A", { Pos := 0, Address := "A", Balance := ⟨5000, 0⟩,
               Unspents := [sampleUnspent "ta" 5000 true] }),
       ("B", { Pos := 1, Address := "B", Balance := ⟨3000, 3000⟩,
               Unspents := [sampleUnspent "tb" 3000 false] })] }

/-- Two addresses holding `2 ^ 63` each: every address is consistent, and the
wallet-wide `uint64` sum wraps to 0. -/
def wrappedWallet : Wallet :=
  { LastPos := 2
    Address :=
      [("A", { Pos := 0, Address := "A", Balance := ⟨9223372036854775808, 0⟩,
               Unspents := [sampleUnspent "ta" 9223372036854775808 true] }),
       ("B", { Pos := 1, Address := "B", Balance := ⟨9223372036854775808, 0⟩,
               Unspents := [sampleUnspent "tb" 9223372036854775808 true] })] }

/-- The candidate built from the unspent output of address `A` of `exampleWallet`. -/
def exampleUtxoA : UTXO :=
  { Pos := 0, Txid := "ta", Vout := 0, Value := 5000, Address := "A", Confirmed := true,
    SvrPubKey := "svrpubkey", Scriptpubkey := "" }

/-- The candidate built from the unspent output of address `B` of `exampleWallet`. -/
def exampleUtxoB : UTXO :=
  { Pos := 1, Txid := "tb", Vout := 0, Value := 3000, Address := "B", Confirmed := false,
    SvrPubKey := "svrpubkey", Scriptpubkey := "" }

/-- One address holding a single output of `2 ^ 64 - 1`, the largest `uint64`. -/
def fullWallet : Wallet :=
  { LastPos := 1
    Address :=
      [("A", { Pos := 0, Address := "A", Balance := ⟨18446744073709551615, 0⟩,
               Unspents := [sampleUnspent "ta" 18446744073709551615 true] })] }

/-- Two unconfirmed outputs of `2 ^ 63` each. -/
def wrapUnspents : List Unspent :=
  [sampleUnspent "t1" 9223372036854775808 false, sampleUnspent "t2" 9223372036854775808 false]

/-- The state after `NewAddress` and `UpdateUnspents("A", wrapUnspents)` on a new wallet. -/
def wrappedAddressWallet : Wallet :=
  { LastPos := 1
    Address := [("A", { Pos := 0, Address := "A", Balance := ⟨0, 0⟩, Unspents := wrapUnspents })] }

/-- Three addresses holding one output each, worth `2 ^ 64 - 2`, `2 ^ 64 - 2`
and 3: every address stores exactly the value it holds, and the wallet-wide
`uint64` sum wraps to `2 ^ 64 - 1`. -/
def tripleWallet : Wallet :=
  { LastPos := 3
    Address :=
      [("A", { Pos := 0, Address := "A", Balance := ⟨18446744073709551614, 0⟩,
               Unspents := [sampleUnspent "ta" 18446744073709551614 true] }),
       ("B", { Pos := 1, Address := "B", Balance := ⟨18446744073709551614, 0⟩,
               Unspents := [sampleUnspent "tb" 18446744073709551614 true] }),
       ("CC", { Pos := 2, Address := "CC", Balance := ⟨3, 0⟩,
                Unspents := [sampleUnspent "tc" 3 true] })] }

/-- The candidate `Wallet.Unspents` builds from an output of `tripleWallet`. -/
def tripleUtxo (pos : Nat) (txid : String) (value : Nat) (address : String) : UTXO :=
  { Pos := pos, Txid := txid, Vout := 0, Value := value, Address := address, Confirmed := true,
    SvrPubKey := "svrpubkey", Scriptpubkey := "" }

/-- The three candidates of `tripleWallet`, largest first. -/
def tripleUtxos : List UTXO :=
  [tripleUtxo 0 "ta" 18446744073709551614 "A", tripleUtxo 1 "tb" 18446744073709551614 "B",
   tripleUtxo 2 "tc" 3 "CC"]

/-- A transaction with the given confirmation flag and block time. -/
def sampleTx (txid : String) (confirmed : Bool) (blockTime : Int) : Tx :=
  { Txid := txid, Fee := 0, Value := 0, Confirmed := confirmed, BlockTime := blockTime,
    BlockHeight := 0 }

/-- One address with three transactions: confirmed at time 1, unconfirmed,
confirmed at time 2. -/
def historyWallet : Wallet :=
  { LastPos := 1
    Address :=
      [("A", { Pos := 0, Address := "A",
               Txs := [sampleTx "t1" true 1, sampleTx "t2" false 0, sampleTx "t3" true 2] })] }

/-- Collaborators whose address derivation returns the string `A` at every position. -/
def constantCollaborators : Collaborators where
  createSharedAddress := fun _ _ _ _ _ => .ok "A"
  createSvrChildPubKey := fun _ _ _ => .ok "svrpubkey"
  EstimateNormalSize := fun inputs outputs => 10 + 148 * inputs + 34 * outputs

/-- Collaborators whose address derivation fails. -/
def failingCollaborators : Collaborators where
  createSharedAddress := fun _ _ _ _ _ => .error "derivation failed"
  createSvrChildPubKey := fun _ _ _ => .ok "svrpubkey"
  EstimateNormalSize := fun inputs outputs => 10 + 148 * inputs + 34 * outputs

/-- A wallet whose `LastPos` is the largest `uint32` and which holds the address
derived at position 0. -/
def lastPosWallet : Wallet :=
  { LastPos := 4294967295
    Address := [("Z", { Pos := 0, Address := "Z" })] }

/-- The state after `n + 1` calls of `NewAddress` on a new wallet when every
derivation returns `A`: the single entry `A` holds the last position handed out. -/
def repeatedWallet (n : Nat) : Wallet :=
  { LastPos := (n + 1) % uint32Size
    Address := [("A", { Pos := n % uint32Size, Address := "A" })] }

/-! ## The insertion sort meets the contract of `sort.Slice` -/

theorem insertBack_perm {α : Type} (less : α → α → Bool) (x : α) (ys : List α) :
    List.Perm (insertBack less x ys) (x :: ys) := by
  induction ys with
  | nil => exact List.Perm.refl _
  | cons y ys ih =>
    unfold insertBack
    split
    · exact (List.Perm.cons y ih).trans (List.Perm.swap x y ys)
    · exact List.Perm.refl _

theorem insertBack_sorted {α : Type} (less : α → α → Bool) (h : StrictWeakOrdering less)
    (x : α) (ys : List α) (hys : List.Pairwise (fun a b => less a b = false) ys) :
    List.Pairwise (fun a b => less a b = false) (insertBack less x ys) := by
  induction ys with
  | nil => simp [insertBack]
  | cons y ys ih =>
    rw [List.pairwise_cons] at hys
    unfold insertBack
    split
    · rename_i hxy
      rw [List.pairwise_cons]
      refine ⟨?_, ih hys.2⟩
      intro z hz
      rcases List.mem_cons.mp ((insertBack_perm less x ys).mem_iff.mp hz) with rfl | hz
      · cases hyx : less y z with
        | false => rfl
        | true =>
          have := h.trans z y z hxy hyx
          rw [h.irrefl z] at this
          exact absurd this (by decide)
      · exact hys.1 z hz
    · rename_i hxy
      have hxy' : less x y = false := by simpa using hxy
      rw [List.pairwise_cons]
      refine ⟨?_, List.pairwise_cons.mpr hys⟩
      intro z hz
      rcases List.mem_cons.mp hz with rfl | hz
      · exact hxy'
      · exact h.negTrans x y z hxy' (hys.1 z hz)

theorem foldl_insertBack_perm {α : Type} (less : α → α → Bool) (xs acc : List α) :
    List.Perm (xs.foldl (fun sortedRev x => insertBack less x sortedRev) acc) (xs ++ acc) := by
  induction xs generalizing acc with
  | nil => exact List.Perm.refl _
  | cons x xs ih =>
    simp only [List.foldl_cons]
    refine (ih _).trans ?_
    refine (List.Perm.append_left xs (insertBack_perm less x acc)).trans ?_
    simp

theorem foldl_insertBack_sorted {α : Type} (less : α → α → Bool) (h : StrictWeakOrdering less)
    (xs acc : List α) (hacc : List.Pairwise (fun a b => less a b = false) acc) :
    List.Pairwise (fun a b => less a b = false)
      (xs.foldl (fun sortedRev x => insertBack less x sortedRev) acc) := by
  induction xs generalizing acc with
  | nil => exact hacc
  | cons x xs ih =>
    simp only [List.foldl_cons]
    exact ih _ (insertBack_sorted less h x acc hacc)

theorem insertionSort_perm {α : Type} (less : α → α → Bool) (xs : List α) :
    List.Perm (insertionSort less xs) xs := by
  unfold insertionSort
  refine (List.reverse_perm _).trans ?_
  simpa using foldl_insertBack_perm less xs []

theorem insertionSort_sorted {α : Type} (less : α → α → Bool) (xs : List α)
    (h : StrictWeakOrdering less) :
    List.Pairwise (fun a b => less b a = false) (insertionSort less xs) := by
  unfold insertionSort
  rw [List.pairwise_reverse]
  exact foldl_insertBack_sorted less h xs [] List.Pairwise.nil

theorem insertionSorter_valid : insertionSorter.Valid where
  perm := fun less xs => insertionSort_perm less xs
  sorted := fun less xs h => insertionSort_sorted less xs h

theorem valueGreater_strictWeak : StrictWeakOrdering valueGreater where
  irrefl := by intro a; simp [valueGreater]
  trans := by
    intro a b c h1 h2
    simp only [valueGreater, decide_eq_true_eq] at *
    omega
  negTrans := by
    intro a b c h1 h2
    simp only [valueGreater, decide_eq_false_iff_not] at *
    omega

/-! ## The scan of `Wallet.Unspents` -/

theorem wrap_add (a b c : Nat) :
    ((a + b) % uint64Size + c) % uint64Size = (a + (b + c)) % uint64Size := by
  rw [Nat.add_mod ((a + b) % uint64Size) c, Nat.mod_mod, ← Nat.add_mod, Nat.add_assoc]

theorem appendUnspents_values (E : Collaborators) (w : Wallet) (addr : Address)
    (unspents : List Unspent) (utxos r : List UTXO)
    (h : appendUnspents E w addr unspents utxos = .ok r) :
    r.map (fun u => u.Value) = utxos.map (fun u => u.Value) ++ unspents.map (fun u => u.Value) := by
  induction unspents generalizing utxos with
  | nil =>
    simp only [appendUnspents, Except.ok.injEq] at h
    simp [h]
  | cons u rest ih =>
    unfold appendUnspents at h
    split at h
    · cases h
    · rw [ih _ h]
      simp

theorem scanAddresses_ok (E : Collaborators) (w : Wallet) (addrs : List (String × Address))
    (utxos : List UTXO) (balance : Nat) (r : List UTXO) (b : Nat) (hb : balance < uint64Size)
    (h : scanAddresses E w addrs utxos balance = .ok (r, b)) :
    r.map (fun u => u.Value)
        = utxos.map (fun u => u.Value) ++ (heldUnspents addrs).map (fun u => u.Value)
      ∧ b = (balance + storedTotal addrs) % uint64Size := by
  induction addrs generalizing utxos balance with
  | nil =>
    simp only [scanAddresses, Except.ok.injEq, Prod.mk.injEq] at h
    obtain ⟨rfl, rfl⟩ := h
    simp [heldUnspents, storedTotal, Nat.mod_eq_of_lt hb]
  | cons p rest ih =>
    obtain ⟨k, addr⟩ := p
    unfold scanAddresses at h
    split at h
    · cases h
    · rename_i utxos' happ
      have hv := appendUnspents_values E w addr addr.Unspents utxos utxos' happ
      obtain ⟨h1, h2⟩ := ih utxos' _ (Nat.mod_lt _ (by decide)) h
      refine ⟨?_, ?_⟩
      · rw [h1, hv]
        simp [heldUnspents]
      · rw [h2]
        simp only [storedTotal]
        exact wrap_add _ _ _

theorem appendUnspents_succeeds (E : Collaborators) (w : Wallet) (addr : Address) (key : String)
    (hk : E.createSvrChildPubKey addr.Pos w.SvrMasterPrvKey w.net = .ok key)
    (unspents : List Unspent) (utxos : List UTXO) :
    ∃ r, appendUnspents E w addr unspents utxos = .ok r := by
  induction unspents generalizing utxos with
  | nil => exact ⟨utxos, rfl⟩
  | cons u rest ih =>
    unfold appendUnspents
    rw [hk]
    exact ih _

theorem scanAddresses_succeeds (E : Collaborators) (w : Wallet)
    (addrs : List (String × Address))
    (hk : ∀ p ∈ addrs, ∃ key, E.createSvrChildPubKey p.2.Pos w.SvrMasterPrvKey w.net = .ok key)
    (utxos : List UTXO) (balance : Nat) :
    ∃ r b, scanAddresses E w addrs utxos balance = .ok (r, b) := by
  induction addrs generalizing utxos balance with
  | nil => exact ⟨utxos, balance, rfl⟩
  | cons p rest ih =>
    obtain ⟨k, addr⟩ := p
    obtain ⟨key, hkey⟩ := hk (k, addr) (List.mem_cons_self _ _)
    obtain ⟨r, hr⟩ := appendUnspents_succeeds E w addr key hkey addr.Unspents utxos
    unfold scanAddresses
    rw [hr]
    exact ih (fun q hq => hk q (List.mem_cons_of_mem _ hq)) _ _

theorem sumBalances_total (addrs : List (String × Address)) (b : Balance)
    (hb : b.TotalBalance < uint64Size) :
    (sumBalances addrs b).TotalBalance = (b.TotalBalance + storedTotal addrs) % uint64Size := by
  induction addrs generalizing b with
  | nil => simp [sumBalances, storedTotal, Nat.mod_eq_of_lt hb]
  | cons p rest ih =>
    obtain ⟨k, addr⟩ := p
    unfold sumBalances
    rw [ih _ (Nat.mod_lt _ (by decide))]
    simp only [storedTotal]
    exact wrap_add _ _ _

theorem Balance_total (w : Wallet) :
    w.Balance.TotalBalance = storedTotal w.Address % uint64Size := by
  unfold Wallet.Balance
  rw [sumBalances_total _ _ (by decide)]
  simp

/-! ## The greedy loop of `Wallet.Unspents` -/

theorem patch_acc (sendAmount : Nat) (xs : List UTXO) (thresh : Nat) (rsp : List UTXO) :
    patch sendAmount xs thresh rsp = rsp ++ patch sendAmount xs thresh [] := by
  induction xs generalizing thresh rsp with
  | nil => simp [patch]
  | cons x rest ih =>
    unfold patch
    simp only [List.nil_append]
    split
    · rfl
    · rw [ih _ (rsp ++ [x]), ih _ [x]]
      simp

theorem patch_cons (sendAmount : Nat) (x : UTXO) (rest : List UTXO) (thresh : Nat) :
    patch sendAmount (x :: rest) thresh []
      = if (thresh + x.Value) % uint64Size ≥ sendAmount then [x]
        else x :: patch sendAmount rest ((thresh + x.Value) % uint64Size) [] := by
  conv => lhs; unfold patch
  simp only [List.nil_append]
  split
  · rfl
  · rw [patch_acc]
    rfl

/-- The loop returns an initial segment of the sorted candidates. -/
theorem patch_initial (sendAmount : Nat) (xs : List UTXO) (thresh : Nat) :
    ∃ rest, xs = patch sendAmount xs thresh [] ++ rest := by
  induction xs generalizing thresh with
  | nil => exact ⟨[], by simp [patch]⟩
  | cons x tl ih =>
    rw [patch_cons]
    split
    · exact ⟨tl, rfl⟩
    · obtain ⟨rest, hrest⟩ := ih ((thresh + x.Value) % uint64Size)
      exact ⟨rest, by rw [List.cons_append, ← hrest]⟩

/-- Either the running total reached the amount, or every candidate was taken. -/
theorem patch_covers (sendAmount : Nat) (xs : List UTXO) (thresh : Nat) :
    sendAmount ≤ thresh + utxoTotal (patch sendAmount xs thresh [])
      ∨ patch sendAmount xs thresh [] = xs := by
  induction xs generalizing thresh with
  | nil => right; simp [patch]
  | cons x tl ih =>
    rw [patch_cons]
    have hle : (thresh + x.Value) % uint64Size ≤ thresh + x.Value := Nat.mod_le _ _
    split
    · left
      simp only [utxoTotal, List.map_cons, List.map_nil, List.sum_cons, List.sum_nil]
      omega
    · rcases ih ((thresh + x.Value) % uint64Size) with h | h
      · left
        simp only [utxoTotal, List.map_cons, List.sum_cons] at h ⊢
        omega
      · right
        rw [h]

/-- The `uint64` running total before the last returned output is below the amount. -/
theorem patch_tight (sendAmount : Nat) (xs : List UTXO) (thresh : Nat)
    (ht : thresh < sendAmount) (hm : thresh < uint64Size) :
    (thresh + utxoTotal (patch sendAmount xs thresh []).dropLast) % uint64Size < sendAmount := by
  induction xs generalizing thresh with
  | nil => simpa [patch, utxoTotal, Nat.mod_eq_of_lt hm] using ht
  | cons x tl ih =>
    rw [patch_cons]
    split
    · simpa [utxoTotal, Nat.mod_eq_of_lt hm] using ht
    · rename_i hlt
      have hlt' : (thresh + x.Value) % uint64Size < sendAmount := by omega
      have := ih _ hlt' (Nat.mod_lt _ (by decide))
      cases hp : patch sendAmount tl ((thresh + x.Value) % uint64Size) [] with
      | nil => simpa [utxoTotal, Nat.mod_eq_of_lt hm] using ht
      | cons y ys =>
        rw [hp] at this
        simp only [List.dropLast_cons₂, utxoTotal, List.map_cons, List.sum_cons] at this ⊢
        have e : (thresh + (x.Value + (List.map (fun u => u.Value) (y :: ys).dropLast).sum))
            % uint64Size
            = ((thresh + x.Value) % uint64Size
                + (List.map (fun u => u.Value) (y :: ys).dropLast).sum) % uint64Size :=
          (wrap_add _ _ _).symm
        rw [e]
        exact this

/-! ## `Wallet.Unspents` -/

/-- What a successful call of `Wallet.Unspents` went through. -/
theorem Unspents_ok (E : Collaborators) (S : SliceSorter) (w : Wallet) (sendAmount : Nat)
    (rsp : List UTXO) (h : w.Unspents E S sendAmount = .ok rsp) :
    ∃ utxos, scanAddresses E w w.Address [] 0 = .ok (utxos, storedTotal w.Address % uint64Size)
      ∧ utxos.map (fun u => u.Value) = (heldUnspents w.Address).map (fun u => u.Value)
      ∧ sendAmount ≤ storedTotal w.Address % uint64Size
      ∧ rsp = patch sendAmount (S.sort valueGreater utxos) 0 [] := by
  unfold Wallet.Unspents at h
  split at h
  · cases h
  · rename_i utxos balance hscan
    obtain ⟨hv, hb⟩ := scanAddresses_ok E w w.Address [] 0 utxos balance (by decide) hscan
    simp only [Nat.zero_add] at hb
    split at h
    · cases h
    · rename_i hlt
      simp only [Except.ok.injEq] at h
      refine ⟨utxos, ?_, ?_, ?_, h.symm⟩
      · rw [hscan, hb]
      · simpa using hv
      · omega

theorem storedTotal_consistent (addrs : List (String × Address))
    (h : ∀ p ∈ addrs, p.2.Balance.TotalBalance = unspentTotal p.2.Unspents) :
    storedTotal addrs = unspentTotal (heldUnspents addrs) := by
  induction addrs with
  | nil => rfl
  | cons p rest ih =>
    obtain ⟨k, addr⟩ := p
    have h1 := h (k, addr) (List.mem_cons_self _ _)
    have h2 := ih (fun q hq => h q (List.mem_cons_of_mem _ hq))
    simp only [storedTotal, heldUnspents, unspentTotal, List.map_append, List.sum_append] at *
    omega

/-- C1. In a wallet whose addresses each store as total balance the sum of the
values of their unspent outputs, the outputs returned by a successful
`Wallet.Unspents(sendAmount)` have values that sum to at least `sendAmount`. -/
theorem Unspents_covers_amount (E : Collaborators) (S : SliceSorter) (hS : S.Valid)
    (w : Wallet) (sendAmount : Nat) (rsp : List UTXO) (hc : w.Consistent)
    (h : w.Unspents E S sendAmount = .ok rsp) :
    sendAmount ≤ utxoTotal rsp := by
  obtain ⟨utxos, _, hv, hle, hrsp⟩ := Unspents_ok E S w sendAmount rsp h
  rcases patch_covers sendAmount (S.sort valueGreater utxos) 0 with hcov | hall
  · rw [hrsp]
    omega
  · have hperm : List.Perm (rsp.map (fun u => u.Value)) (utxos.map (fun u => u.Value)) := by
      rw [hrsp, hall]
      exact (hS.perm valueGreater utxos).map _
    have hsum : utxoTotal rsp = unspentTotal (heldUnspents w.Address) := by
      unfold utxoTotal unspentTotal
      rw [hperm.sum_eq, hv]
    have hst := storedTotal_consistent w.Address hc
    have hmod : storedTotal w.Address % uint64Size ≤ storedTotal w.Address := Nat.mod_le _ _
    omega

theorem exampleWallet_consistent : exampleWallet.Consistent := by
  unfold Wallet.Consistent exampleWallet
  decide

theorem sample_keysDerivable (w : Wallet) : w.KeysDerivable sampleCollaborators :=
  fun _ _ => ⟨"svrpubkey", rfl⟩

/-- Witness of C1: on the example wallet, `Unspents(4000)` returns the 5000 output. -/
theorem Unspents_covers_amount_witness :
    exampleWallet.Consistent
      ∧ exampleWallet.Unspents sampleCollaborators insertionSorter 4000 = .ok [exampleUtxoA]
      ∧ 4000 ≤ utxoTotal [exampleUtxoA] :=
  ⟨exampleWallet_consistent, rfl,
    Unspents_covers_amount sampleCollaborators insertionSorter insertionSorter_valid
      exampleWallet 4000 [exampleUtxoA] exampleWallet_consistent rfl⟩

/-- C2 as stated fails: in `wrappedWallet` every key derivation succeeds and the
total balances sum to `2 ^ 64`, which is not below the amount 1, yet
`Unspents(1)` returns the insufficient-funds error, reporting a balance of 0. -/
theorem Unspents_error_counterexample :
    wrappedWallet.KeysDerivable sampleCollaborators
      ∧ storedTotal wrappedWallet.Address = 18446744073709551616
      ∧ ¬ (storedTotal wrappedWallet.Address < 1)
      ∧ wrappedWallet.Unspents sampleCollaborators insertionSorter 1
          = .error (.insufficient 1 0) :=
  ⟨sample_keysDerivable _, rfl, by decide, rfl⟩

/-- C2, amended. When server public-key derivation succeeds, `Wallet.Unspents`
returns an error exactly when the `uint64` sum (the sum modulo `2 ^ 64`) of the
addresses' total balances is strictly below the amount; the error then carries
the amount and that balance; and when the total balances sum to less than
`2 ^ 64` the error occurs exactly when their sum is below the amount. -/
theorem Unspents_error_iff (E : Collaborators) (S : SliceSorter) (w : Wallet)
    (sendAmount : Nat) (hk : w.KeysDerivable E) :
    ((∃ err, w.Unspents E S sendAmount = .error err)
        ↔ storedTotal w.Address % uint64Size < sendAmount)
      ∧ (storedTotal w.Address % uint64Size < sendAmount →
          w.Unspents E S sendAmount
            = .error (.insufficient sendAmount (storedTotal w.Address % uint64Size)))
      ∧ (storedTotal w.Address < uint64Size →
          ((∃ err, w.Unspents E S sendAmount = .error err)
            ↔ storedTotal w.Address < sendAmount)) := by
  obtain ⟨utxos, b, hscan⟩ := scanAddresses_succeeds E w w.Address hk [] 0
  obtain ⟨_, hb⟩ := scanAddresses_ok E w w.Address [] 0 utxos b (by decide) hscan
  simp only [Nat.zero_add] at hb
  have key : (∃ err, w.Unspents E S sendAmount = .error err)
      ↔ storedTotal w.Address % uint64Size < sendAmount := by
    unfold Wallet.Unspents
    rw [hscan]
    simp only [hb]
    by_cases hlt : storedTotal w.Address % uint64Size < sendAmount
    · rw [if_pos hlt]
      exact ⟨fun _ => hlt, fun _ => ⟨_, rfl⟩⟩
    · rw [if_neg hlt]
      exact ⟨fun ⟨_, he⟩ => (by cases he), fun h => absurd h hlt⟩
  refine ⟨key, ?_, ?_⟩
  · intro hlt
    unfold Wallet.Unspents
    rw [hscan]
    simp only [hb]
    rw [if_pos hlt]
  · intro hsmall
    rw [key, Nat.mod_eq_of_lt hsmall]

/-- Witness of the amended C2: on the example wallet (balance 8000),
`Unspents(9000)` fails with the amounts 9000 and 8000, and `Unspents(8000)` does not fail. -/
theorem Unspents_error_iff_witness :
    exampleWallet.Unspents sampleCollaborators insertionSorter 9000
        = .error (.insufficient 9000 8000)
      ∧ ¬ (∃ err, exampleWallet.Unspents sampleCollaborators insertionSorter 8000
          = .error err) :=
  ⟨(Unspents_error_iff sampleCollaborators insertionSorter exampleWallet 9000
      (sample_keysDerivable _)).2.1 (by decide),
   fun h => absurd
    ((Unspents_error_iff sampleCollaborators insertionSorter exampleWallet 8000
      (sample_keysDerivable _)).1.mp h) (by decide)⟩

/-! ## `Wallet.SendFees` -/

/-- What a successful call of `Wallet.SendFees` went through. -/
theorem SendFees_ok (E : Collaborators) (S : SliceSorter) (w : Wallet) (sendValue : Nat)
    (feesPerKB : Int) (r : SendFees) (h : w.SendFees E S sendValue feesPerKB = .ok r) :
    ∃ unspents, w.Unspents E S sendValue = .ok unspents
      ∧ r.Fees = computeFees E unspents.length feesPerKB
      ∧ r.TotalValue = w.Balance.TotalBalance
      ∧ r.Fees < r.TotalValue
      ∧ sendValue ≤ r.TotalValue
      ∧ r.TotalValue < uint64Size
      ∧ r.SendableValue
          = if (sendValue + r.Fees) % uint64Size > r.TotalValue then r.TotalValue - r.Fees
            else sendValue := by
  unfold Wallet.SendFees at h
  split at h
  · cases h
  · rename_i unspents hu
    obtain ⟨_, _, _, hle, _⟩ := Unspents_ok E S w sendValue unspents hu
    simp only at h
    split at h
    · cases h
    · rename_i hfee
      simp only [Except.ok.injEq] at h
      subst h
      refine ⟨unspents, hu, rfl, rfl, by simpa using hfee, ?_, ?_, rfl⟩
      · rw [Balance_total]
        exact hle
      · rw [Balance_total]
        exact Nat.mod_lt _ (by decide)

/-- C3 as stated fails: in `fullWallet` (balance `2 ^ 64 - 1`) a request for the
whole balance at 1000 per KB succeeds with a fee of 226; `sendValue + Fees`
exceeds `TotalValue` as natural numbers, yet the sendable value is `sendValue`
and not `TotalValue - Fees`. -/
theorem SendFees_sendable_counterexample :
    fullWallet.SendFees sampleCollaborators insertionSorter 18446744073709551615 1000
        = .ok { Fees := 226, TotalValue := 18446744073709551615,
                SendableValue := 18446744073709551615 }
      ∧ 18446744073709551615 + 226 > 18446744073709551615
      ∧ (18446744073709551615 : Nat) ≠ 18446744073709551615 - 226 :=
  ⟨rfl, by decide, by decide⟩

/-- C3, amended. For every successful result of `Wallet.SendFees`,
`SendableValue ≤ sendValue`; `SendableValue` is `TotalValue - Fees` when the
`uint64` sum `sendValue + Fees` (taken modulo `2 ^ 64`) exceeds `TotalValue`
and is `sendValue` otherwise; and when `sendValue + Fees` is below `2 ^ 64`,
`SendableValue` is `sendValue` unless `sendValue + Fees > TotalValue`, in which
case it is `TotalValue - Fees`. -/
theorem SendFees_sendable (E : Collaborators) (S : SliceSorter) (w : Wallet) (sendValue : Nat)
    (feesPerKB : Int) (r : SendFees) (h : w.SendFees E S sendValue feesPerKB = .ok r) :
    r.SendableValue ≤ sendValue
      ∧ ((sendValue + r.Fees) % uint64Size > r.TotalValue →
          r.SendableValue = r.TotalValue - r.Fees)
      ∧ (¬ (sendValue + r.Fees) % uint64Size > r.TotalValue → r.SendableValue = sendValue)
      ∧ (sendValue + r.Fees < uint64Size →
          (sendValue + r.Fees > r.TotalValue → r.SendableValue = r.TotalValue - r.Fees)
            ∧ (¬ sendValue + r.Fees > r.TotalValue → r.SendableValue = sendValue)) := by
  obtain ⟨_, _, _, _, hfee, hle, htot, hs⟩ := SendFees_ok E S w sendValue feesPerKB r h
  simp only [uint64Size] at *
  refine ⟨?_, ?_, ?_, ?_⟩
  · rw [hs]
    split <;> omega
  · intro hgt
    rw [hs, if_pos hgt]
  · intro hgt
    rw [hs, if_neg hgt]
  · intro hsmall
    rw [Nat.mod_eq_of_lt hsmall] at hs
    exact ⟨fun hgt => by rw [hs, if_pos hgt], fun hgt => by rw [hs, if_neg hgt]⟩

/-- Witness of the amended C3: the specification's example, balance 8000,
`sendValue` 8000 and a fee of 500 (rate 1337 per KB on 374 bytes) give 7500. -/
theorem SendFees_sendable_witness :
    exampleWallet.SendFees sampleCollaborators insertionSorter 8000 1337
        = .ok { Fees := 500, TotalValue := 8000, SendableValue := 7500 }
      ∧ (7500 : Nat) ≤ 8000
      ∧ ((8000 + 500) % uint64Size > 8000 → (7500 : Nat) = 8000 - 500) :=
  have h := SendFees_sendable sampleCollaborators insertionSorter exampleWallet 8000 1337
    { Fees := 500, TotalValue := 8000, SendableValue := 7500 } rfl
  ⟨rfl, h.1, h.2.1⟩

/-- C4 as stated fails: in `fullWallet` a request for the whole balance
`2 ^ 64 - 1` at 1000 per KB succeeds, and the returned sendable value plus the
fee exceeds the total value. -/
theorem SendFees_within_balance_counterexample :
    fullWallet.SendFees sampleCollaborators insertionSorter 18446744073709551615 1000
        = .ok { Fees := 226, TotalValue := 18446744073709551615,
                SendableValue := 18446744073709551615 }
      ∧ ¬ (18446744073709551615 + 226 ≤ 18446744073709551615) :=
  ⟨rfl, by decide⟩

/-- C4, amended. For every successful result of `Wallet.SendFees` the `uint64`
sum of `SendableValue` and `Fees` (taken modulo `2 ^ 64`) does not exceed
`TotalValue`, and when `sendValue + Fees` is below `2 ^ 64` then
`SendableValue + Fees ≤ TotalValue` as natural numbers. -/
theorem SendFees_within_balance (E : Collaborators) (S : SliceSorter) (w : Wallet)
    (sendValue : Nat) (feesPerKB : Int) (r : SendFees)
    (h : w.SendFees E S sendValue feesPerKB = .ok r) :
    (r.SendableValue + r.Fees) % uint64Size ≤ r.TotalValue
      ∧ (sendValue + r.Fees < uint64Size → r.SendableValue + r.Fees ≤ r.TotalValue) := by
  obtain ⟨_, _, _, _, hfee, hle, htot, hs⟩ := SendFees_ok E S w sendValue feesPerKB r h
  simp only [uint64Size] at *
  constructor
  · rw [hs]
    split <;> omega
  · intro hsmall
    rw [hs]
    split <;> omega

/-- Witness of the amended C4 on the specification's example: 7500 + 500 ≤ 8000. -/
theorem SendFees_within_balance_witness :
    exampleWallet.SendFees sampleCollaborators insertionSorter 8000 1337
        = .ok { Fees := 500, TotalValue := 8000, SendableValue := 7500 }
      ∧ 7500 + 500 ≤ 8000 :=
  ⟨rfl, (SendFees_within_balance sampleCollaborators insertionSorter exampleWallet 8000 1337
    { Fees := 500, TotalValue := 8000, SendableValue := 7500 } rfl).2 (by decide)⟩

/-- C5. `Wallet.SendFees` fails exactly when `Wallet.Unspents(sendValue)` fails or
the fee computed from the selected outputs is at least the wallet's total
balance; an error of `Wallet.Unspents` is returned unchanged; and every
successful result carries the wallet's total balance as `TotalValue`. -/
theorem SendFees_fails_iff (E : Collaborators) (S : SliceSorter) (w : Wallet) (sendValue : Nat)
    (feesPerKB : Int) :
    ((∃ err, w.SendFees E S sendValue feesPerKB = .error err)
        ↔ ((∃ err, w.Unspents E S sendValue = .error err)
            ∨ ∃ unspents, w.Unspents E S sendValue = .ok unspents
                ∧ computeFees E unspents.length feesPerKB ≥ w.Balance.TotalBalance))
      ∧ (∀ err, w.Unspents E S sendValue = .error err →
          w.SendFees E S sendValue feesPerKB = .error err)
      ∧ (∀ r, w.SendFees E S sendValue feesPerKB = .ok r →
          r.TotalValue = w.Balance.TotalBalance) := by
  refine ⟨?_, ?_, ?_⟩
  · unfold Wallet.SendFees
    cases hu : w.Unspents E S sendValue with
    | error err => simp
    | ok unspents =>
      simp only [false_or, Except.ok.injEq, exists_eq_left', exists_false]
      by_cases hfee : computeFees E unspents.length feesPerKB ≥ w.Balance.TotalBalance
      · simp [hfee]
      · simp [hfee]
  · intro err hu
    unfold Wallet.SendFees
    rw [hu]
  · intro r h
    obtain ⟨_, _, _, ht, _⟩ := SendFees_ok E S w sendValue feesPerKB r h
    exact ht

/-- Witness of C5: on the example wallet `SendFees(9000, 1000)` returns the
error of `Unspents(9000)` unchanged. -/
theorem SendFees_fails_iff_witness :
    exampleWallet.SendFees sampleCollaborators insertionSorter 9000 1000
      = .error (.insufficient 9000 8000) :=
  (SendFees_fails_iff sampleCollaborators insertionSorter exampleWallet 9000 1000).2.1
    (.insufficient 9000 8000) rfl

/-! ## `Wallet.UpdateUnspents` and `Wallet.Balance` -/

theorem unconfirmedTotal_cons (u : Unspent) (rest : List Unspent) :
    unconfirmedTotal (u :: rest)
      = if !u.Confirmed then u.Value + unconfirmedTotal rest else unconfirmedTotal rest := by
  unfold unconfirmedTotal
  cases hc : u.Confirmed <;> simp [List.filter_cons, hc]

theorem unconfirmedTotal_le (unspents : List Unspent) :
    unconfirmedTotal unspents ≤ unspentTotal unspents := by
  induction unspents with
  | nil => simp [unconfirmedTotal, unspentTotal]
  | cons u rest ih =>
    rw [unconfirmedTotal_cons]
    simp only [unspentTotal, List.map_cons, List.sum_cons] at ih ⊢
    split <;> omega

theorem sumUnspents_eq (unspents : List Unspent) (balance unconfirmedBalance : Nat)
    (hb : balance < uint64Size) (hu : unconfirmedBalance < uint64Size) :
    sumUnspents unspents balance unconfirmedBalance
      = ((balance + unspentTotal unspents) % uint64Size,
         (unconfirmedBalance + unconfirmedTotal unspents) % uint64Size) := by
  induction unspents generalizing balance unconfirmedBalance with
  | nil => simp [sumUnspents, unspentTotal, unconfirmedTotal, Nat.mod_eq_of_lt hb,
      Nat.mod_eq_of_lt hu]
  | cons u rest ih =>
    unfold sumUnspents
    rw [unconfirmedTotal_cons]
    cases hc : u.Confirmed
    · simp only [Bool.not_false, if_true]
      rw [ih _ _ (Nat.mod_lt _ (by decide)) (Nat.mod_lt _ (by decide))]
      simp only [unspentTotal, List.map_cons, List.sum_cons, wrap_add]
    · simp only [Bool.not_true, Bool.false_eq_true, if_false]
      rw [ih _ _ (Nat.mod_lt _ (by decide)) hu]
      simp only [unspentTotal, List.map_cons, List.sum_cons, wrap_add]

theorem setUnspents_balance (a : Address) (unspents : List Unspent) :
    (a.setUnspents unspents).Balance.TotalBalance = unspentTotal unspents % uint64Size
      ∧ (a.setUnspents unspents).Balance.UnconfirmedBalance
          = unconfirmedTotal unspents % uint64Size
      ∧ (a.setUnspents unspents).Unspents = unspents := by
  unfold Address.setUnspents
  simp [sumUnspents_eq unspents 0 0 (by decide) (by decide)]

theorem lookup_mapModify (addr : String) (f : Address → Address)
    (addrs : List (String × Address)) :
    List.lookup addr (mapModify addr f addrs) = (List.lookup addr addrs).map f := by
  induction addrs with
  | nil => rfl
  | cons p rest ih =>
    obtain ⟨k, v⟩ := p
    unfold mapModify
    by_cases hk : k = addr
    · subst hk
      simp [List.lookup]
    · have hk' : (addr == k) = false := by
        simp only [beq_eq_false_iff_ne, ne_eq]
        exact fun h => hk h.symm
      simp [List.lookup, hk, hk', ih]

/-- C6 as stated fails: after `UpdateUnspents("A", U)` with `U` two unconfirmed
outputs of `2 ^ 63`, both stored balances of `A` are 0 while the values of `U`
sum to `2 ^ 64`. -/
theorem UpdateUnspents_balance_counterexample :
    (exampleWallet.UpdateUnspents "A" wrapUnspents).bind (fun w => w.lookup "A")
        = some { Pos := 0, Address := "A", Balance := ⟨0, 0⟩, Unspents := wrapUnspents }
      ∧ unspentTotal wrapUnspents = 18446744073709551616
      ∧ unconfirmedTotal wrapUnspents = 18446744073709551616 :=
  ⟨rfl, rfl, rfl⟩

/-- C6, amended. For every address known to the wallet and every list `U`,
`Wallet.UpdateUnspents(addr, U)` completes and afterwards the address's
`TotalBalance` is the sum of the values in `U` modulo `2 ^ 64` and its
`UnconfirmedBalance` is the sum of the values of the unconfirmed entries of `U`
modulo `2 ^ 64`, whatever was stored before; when the values of `U` sum to less
than `2 ^ 64` both balances are exactly those sums. -/
theorem UpdateUnspents_balance (w : Wallet) (addr : String) (unspents : List Unspent)
    (a : Address) (h : w.lookup addr = some a) :
    ∃ w' a', w.UpdateUnspents addr unspents = some w' ∧ w'.lookup addr = some a'
      ∧ a'.Balance.TotalBalance = unspentTotal unspents % uint64Size
      ∧ a'.Balance.UnconfirmedBalance = unconfirmedTotal unspents % uint64Size
      ∧ (unspentTotal unspents < uint64Size →
          a'.Balance.TotalBalance = unspentTotal unspents
            ∧ a'.Balance.UnconfirmedBalance = unconfirmedTotal unspents) := by
  obtain ⟨h1, h2, _⟩ := setUnspents_balance a unspents
  refine ⟨{ w with Address := mapModify addr (fun a => a.setUnspents unspents) w.Address },
    a.setUnspents unspents, ?_, ?_, h1, h2, ?_⟩
  · unfold Wallet.UpdateUnspents
    rw [h]
  · unfold Wallet.lookup at h ⊢
    simp only
    rw [lookup_mapModify, h]
    rfl
  · intro hsmall
    have hle := unconfirmedTotal_le unspents
    rw [h1, h2, Nat.mod_eq_of_lt hsmall, Nat.mod_eq_of_lt (by omega)]
    exact ⟨rfl, rfl⟩

/-- Witness of the amended C6: replacing the outputs of address `A` of the example
wallet by one confirmed output of 700 and one unconfirmed output of 50. -/
theorem UpdateUnspents_balance_witness :
    ∃ w' a', exampleWallet.UpdateUnspents "A"
          [sampleUnspent "t1" 700 true, sampleUnspent "t2" 50 false] = some w'
      ∧ w'.lookup "A" = some a'
      ∧ a'.Balance.TotalBalance = 750 % uint64Size
      ∧ a'.Balance.UnconfirmedBalance = 50 % uint64Size
      ∧ (750 < uint64Size →
          a'.Balance.TotalBalance = 750 ∧ a'.Balance.UnconfirmedBalance = 50) :=
  UpdateUnspents_balance exampleWallet "A"
    [sampleUnspent "t1" 700 true, sampleUnspent "t2" 50 false]
    { Pos := 0, Address := "A", Balance := ⟨5000, 0⟩,
      Unspents := [sampleUnspent "ta" 5000 true] } rfl

theorem mem_mapSet (key : String) (value : Address) (addrs : List (String × Address))
    (p : String × Address) (hp : p ∈ mapSet key value addrs) :
    p = (key, value) ∨ p ∈ addrs := by
  induction addrs with
  | nil =>
    left
    simpa [mapSet] using hp
  | cons q rest ih =>
    obtain ⟨k, v⟩ := q
    unfold mapSet at hp
    split at hp
    · rcases List.mem_cons.mp hp with h | h
      · exact Or.inl h
      · exact Or.inr (List.mem_cons_of_mem _ h)
    · rcases List.mem_cons.mp hp with h | h
      · exact Or.inr (h ▸ List.mem_cons_self _ _)
      · rcases ih h with h | h
        · exact Or.inl h
        · exact Or.inr (List.mem_cons_of_mem _ h)

theorem mem_mapModify (addr : String) (f : Address → Address) (addrs : List (String × Address))
    (p : String × Address) (hp : p ∈ mapModify addr f addrs) :
    p ∈ addrs ∨ ∃ q ∈ addrs, p = (q.1, f q.2) := by
  induction addrs with
  | nil => simp [mapModify] at hp
  | cons q rest ih =>
    obtain ⟨k, v⟩ := q
    unfold mapModify at hp
    split at hp
    · rcases List.mem_cons.mp hp with h | h
      · exact Or.inr ⟨(k, v), List.mem_cons_self _ _, h⟩
      · exact Or.inl (List.mem_cons_of_mem _ h)
    · rcases List.mem_cons.mp hp with h | h
      · exact Or.inl (h ▸ List.mem_cons_self _ _)
      · rcases ih h with h | ⟨q, hq, h⟩
        · exact Or.inl (List.mem_cons_of_mem _ h)
        · exact Or.inr ⟨q, List.mem_cons_of_mem _ hq, h⟩

/-- Every reachable wallet stores, for each address, the `uint64` sums of that
address's current unspent outputs. -/
theorem reachable_recomputed (E : Collaborators) (w : Wallet) (h : Reachable E w) :
    BalancesRecomputed w.Address := by
  induction h with
  | newWallet =>
    intro p hp
    simp [NewWallet] at hp
  | newAddress w typ _ ih =>
    unfold Wallet.NewAddress
    simp only
    split
    · exact ih
    · intro p hp
      rcases mem_mapSet _ _ _ p hp with h | h
      · subst h
        exact ⟨rfl, rfl⟩
      · exact ih p h
  | updateUnspents w w' addr unspents _ hu ih =>
    unfold Wallet.UpdateUnspents at hu
    split at hu
    · cases hu
    · simp only [Option.some.injEq] at hu
      subst hu
      intro p hp
      rcases mem_mapModify _ _ _ p hp with h | ⟨q, _, h⟩
      · exact ih p h
      · subst h
        obtain ⟨h1, h2, h3⟩ := setUnspents_balance q.2 unspents
        simp only [h3]
        exact ⟨h1, h2⟩
  | updateTxs w w' addr txs _ hu ih =>
    unfold Wallet.UpdateTxs at hu
    split at hu
    · cases hu
    · simp only [Option.some.injEq] at hu
      subst hu
      intro p hp
      rcases mem_mapModify _ _ _ p hp with h | ⟨q, hq, h⟩
      · exact ih p h
      · subst h
        exact ih q hq
  | reorder w addrs _ hperm ih =>
    intro p hp
    exact ih p (hperm.mem_iff.mp hp)

theorem sumBalances_unconfirmed (addrs : List (String × Address)) (b : Balance)
    (hb : b.UnconfirmedBalance < uint64Size) :
    (sumBalances addrs b).UnconfirmedBalance
      = (b.UnconfirmedBalance + storedUnconfirmed addrs) % uint64Size := by
  induction addrs generalizing b with
  | nil => simp [sumBalances, storedUnconfirmed, Nat.mod_eq_of_lt hb]
  | cons p rest ih =>
    obtain ⟨k, addr⟩ := p
    unfold sumBalances
    rw [ih _ (Nat.mod_lt _ (by decide))]
    simp only [storedUnconfirmed]
    exact wrap_add _ _ _

theorem unconfirmedTotal_append (xs ys : List Unspent) :
    unconfirmedTotal (xs ++ ys) = unconfirmedTotal xs + unconfirmedTotal ys := by
  simp [unconfirmedTotal, List.filter_append]

theorem unspentTotal_append (xs ys : List Unspent) :
    unspentTotal (xs ++ ys) = unspentTotal xs + unspentTotal ys := by
  simp [unspentTotal]

theorem stored_recomputed (addrs : List (String × Address)) (h : BalancesRecomputed addrs) :
    storedTotal addrs % uint64Size = unspentTotal (heldUnspents addrs) % uint64Size
      ∧ storedUnconfirmed addrs % uint64Size
          = unconfirmedTotal (heldUnspents addrs) % uint64Size := by
  induction addrs with
  | nil => exact ⟨rfl, rfl⟩
  | cons p rest ih =>
    obtain ⟨k, addr⟩ := p
    obtain ⟨h1, h2⟩ := h (k, addr) (List.mem_cons_self _ _)
    obtain ⟨i1, i2⟩ := ih (fun q hq => h q (List.mem_cons_of_mem _ hq))
    simp only at h1 h2
    simp only [storedTotal, storedUnconfirmed, heldUnspents, unspentTotal_append,
      unconfirmedTotal_append]
    constructor
    · rw [Nat.add_mod, h1, i1, Nat.mod_mod, ← Nat.add_mod]
    · rw [Nat.add_mod, h2, i2, Nat.mod_mod, ← Nat.add_mod]

/-- C7 as stated fails: `wrappedAddressWallet` is reached from `NewWallet` by one
`NewAddress` and one `UpdateUnspents`; `Balance()` returns 0 and 0 while its
(unconfirmed) unspent outputs are worth `2 ^ 64`. -/
theorem Balance_reachable_counterexample :
    Reachable sampleCollaborators wrappedAddressWallet
      ∧ wrappedAddressWallet.Balance = ⟨0, 0⟩
      ∧ unspentTotal (heldUnspents wrappedAddressWallet.Address) = 18446744073709551616
      ∧ unconfirmedTotal (heldUnspents wrappedAddressWallet.Address) = 18446744073709551616 :=
  ⟨Reachable.updateUnspents (NewWallet.NewAddress sampleCollaborators "").2
      wrappedAddressWallet "A" wrapUnspents
      (Reachable.newAddress NewWallet "" Reachable.newWallet) rfl,
    rfl, rfl, rfl⟩

/-- C7, amended. In every wallet state reachable from `NewWallet` by `NewAddress`,
`UpdateUnspents` and `UpdateTxs` calls on known addresses, `Wallet.Balance()`
returns as `TotalBalance` the sum, modulo `2 ^ 64`, of the values of all unspent
outputs currently held and as `UnconfirmedBalance` the sum, modulo `2 ^ 64`, of
the values of the unconfirmed ones; when the held outputs are worth less than
`2 ^ 64` both are exactly those sums. -/
theorem Balance_reachable (E : Collaborators) (w : Wallet) (h : Reachable E w) :
    w.Balance.TotalBalance = unspentTotal (heldUnspents w.Address) % uint64Size
      ∧ w.Balance.UnconfirmedBalance
          = unconfirmedTotal (heldUnspents w.Address) % uint64Size
      ∧ (unspentTotal (heldUnspents w.Address) < uint64Size →
          w.Balance.TotalBalance = unspentTotal (heldUnspents w.Address)
            ∧ w.Balance.UnconfirmedBalance = unconfirmedTotal (heldUnspents w.Address)) := by
  obtain ⟨h1, h2⟩ := stored_recomputed w.Address (reachable_recomputed E w h)
  have ht : w.Balance.TotalBalance = unspentTotal (heldUnspents w.Address) % uint64Size := by
    rw [Balance_total, h1]
  have hu : w.Balance.UnconfirmedBalance
      = unconfirmedTotal (heldUnspents w.Address) % uint64Size := by
    unfold Wallet.Balance
    rw [sumBalances_unconfirmed _ _ (by decide)]
    simpa using h2
  refine ⟨ht, hu, ?_⟩
  intro hsmall
  have hle := unconfirmedTotal_le (heldUnspents w.Address)
  rw [ht, hu, Nat.mod_eq_of_lt hsmall, Nat.mod_eq_of_lt (by omega)]
  exact ⟨rfl, rfl⟩

theorem exampleWallet_reachable : Reachable sampleCollaborators exampleWallet :=
  Reachable.updateUnspents _ exampleWallet "B" [sampleUnspent "tb" 3000 false]
    (Reachable.updateUnspents _
      { LastPos := 2
        Address :=
          [("A", { Pos := 0, Address := "A", Balance := ⟨5000, 0⟩,
                   Unspents := [sampleUnspent "ta" 5000 true] }),
           ("B", { Pos := 1, Address := "B" })] }
      "A" [sampleUnspent "ta" 5000 true]
      (Reachable.newAddress _ ""
        (Reachable.newAddress NewWallet "" Reachable.newWallet)) rfl) rfl

/-- Witness of the amended C7: the specification's example wallet (A: 5000
confirmed, B: 3000 unconfirmed) is reachable and reports total 8000, unconfirmed 3000. -/
theorem Balance_reachable_witness :
    Reachable sampleCollaborators exampleWallet
      ∧ exampleWallet.Balance.TotalBalance = 8000
      ∧ exampleWallet.Balance.UnconfirmedBalance = 3000 :=
  ⟨exampleWallet_reachable,
    ((Balance_reachable sampleCollaborators exampleWallet exampleWallet_reachable).2.2
      (by decide)).1,
    ((Balance_reachable sampleCollaborators exampleWallet exampleWallet_reachable).2.2
      (by decide)).2⟩

/-! ## The selection of `Wallet.Unspents` is tight, smallest and largest-first -/

/-- C8 as stated fails, in two ways.  On the example wallet `Unspents(0)` returns
the 5000 output, and removing it leaves 0, which is not below 0.  On
`tripleWallet`, `Unspents(2 ^ 64 - 1)` returns all three outputs because the
`uint64` running total wraps, and the first two alone are worth more than the amount. -/
theorem Unspents_tight_counterexample :
    exampleWallet.Unspents sampleCollaborators insertionSorter 0 = .ok [exampleUtxoA]
      ∧ ¬ (utxoTotal ([exampleUtxoA].dropLast) < 0)
      ∧ tripleWallet.Unspents sampleCollaborators insertionSorter 18446744073709551615
          = .ok tripleUtxos
      ∧ ¬ (utxoTotal tripleUtxos.dropLast < 18446744073709551615) :=
  ⟨rfl, by decide, rfl, by decide⟩

/-- C8, amended. For every wallet state and every amount of at least 1 for which
`Wallet.Unspents` succeeds, the `uint64` running total (the sum modulo `2 ^ 64`)
of the returned list without its final element is strictly below the amount;
hence, when those values sum to less than `2 ^ 64`, removing the final element
leaves a total value strictly below the amount. -/
theorem Unspents_tight (E : Collaborators) (S : SliceSorter) (w : Wallet) (sendAmount : Nat)
    (rsp : List UTXO) (hpos : 1 ≤ sendAmount) (h : w.Unspents E S sendAmount = .ok rsp) :
    utxoTotal rsp.dropLast % uint64Size < sendAmount
      ∧ (utxoTotal rsp.dropLast < uint64Size → utxoTotal rsp.dropLast < sendAmount) := by
  obtain ⟨utxos, _, _, _, hrsp⟩ := Unspents_ok E S w sendAmount rsp h
  have ht := patch_tight sendAmount (S.sort valueGreater utxos) 0 (by omega) (by decide)
  rw [← hrsp, Nat.zero_add] at ht
  refine ⟨ht, fun hsmall => ?_⟩
  rwa [Nat.mod_eq_of_lt hsmall] at ht

/-- Witness of the amended C8: on the example wallet `Unspents(6000)` returns both
outputs, and the first alone (5000) is below 6000. -/
theorem Unspents_tight_witness :
    exampleWallet.Unspents sampleCollaborators insertionSorter 6000
        = .ok [exampleUtxoA, exampleUtxoB]
      ∧ utxoTotal [exampleUtxoA, exampleUtxoB].dropLast < 6000 :=
  ⟨rfl, (Unspents_tight sampleCollaborators insertionSorter exampleWallet 6000
    [exampleUtxoA, exampleUtxoB] (by decide) rfl).2 (by decide)⟩

/-- Among the sub-collections of a list sorted largest first, none with at most
`j` elements is worth more than the first `j` elements. -/
theorem sum_le_sum_take (L : List Nat) (hL : L.Pairwise (fun a b => a ≥ b)) (sub : List Nat)
    (hsub : sub.Subperm L) (j : Nat) (hj : sub.length ≤ j) :
    sub.sum ≤ (L.take j).sum := by
  induction L generalizing sub j with
  | nil =>
    have : sub = [] := List.subperm_nil.mp hsub
    simp [this]
  | cons a rest ih =>
    rw [List.pairwise_cons] at hL
    cases j with
    | zero =>
      have : sub = [] := List.length_eq_zero.mp (Nat.le_zero.mp hj)
      simp [this]
    | succ j =>
      rw [List.take_succ_cons, List.sum_cons]
      have herase : (sub.erase a).Subperm rest := by
        have := hsub.erase a
        simpa using this
      by_cases ha : a ∈ sub
      · have hperm := List.perm_cons_erase ha
        have hlen : (sub.erase a).length ≤ j := by
          rw [List.length_erase_of_mem ha]
          omega
        have := ih hL.2 (sub.erase a) herase j hlen
        rw [hperm.sum_eq, List.sum_cons]
        omega
      · rw [List.erase_of_not_mem ha] at herase
        cases sub with
        | nil => simp
        | cons b tl =>
          have hb : b ∈ rest := herase.subset (List.mem_cons_self _ _)
          have hba := hL.1 b hb
          have htl : tl.Subperm rest := (List.sublist_cons_self b tl).subperm.trans herase
          have hlen : tl.length ≤ j := by
            simp only [List.length_cons] at hj
            omega
          have := ih hL.2 tl htl j hlen
          rw [List.sum_cons]
          omega

/-- The candidates after `sort.Slice` are in non-increasing order of value. -/
theorem sorted_values (S : SliceSorter) (hS : S.Valid) (utxos : List UTXO) :
    List.Pairwise (fun a b : UTXO => a.Value ≥ b.Value) (S.sort valueGreater utxos) := by
  refine (hS.sorted valueGreater utxos valueGreater_strictWeak).imp ?_
  intro a b hab
  simp only [valueGreater, decide_eq_false_iff_not] at hab
  omega

/-- C9 as stated fails: `tripleWallet` has consistent balances and
`Unspents(2 ^ 64 - 1)` succeeds with three outputs, yet two of the wallet's
unspent outputs already cover the amount. -/
theorem Unspents_fewest_counterexample :
    tripleWallet.Consistent
      ∧ tripleWallet.Unspents sampleCollaborators insertionSorter 18446744073709551615
          = .ok tripleUtxos
      ∧ List.Subperm
          [sampleUnspent "ta" 18446744073709551614 true,
           sampleUnspent "tb" 18446744073709551614 true]
          (heldUnspents tripleWallet.Address)
      ∧ [sampleUnspent "ta" 18446744073709551614 true,
         sampleUnspent "tb" 18446744073709551614 true].length < tripleUtxos.length
      ∧ unspentTotal [sampleUnspent "ta" 18446744073709551614 true,
          sampleUnspent "tb" 18446744073709551614 true] ≥ 18446744073709551615 :=
  ⟨by unfold Wallet.Consistent tripleWallet; decide, rfl,
    (List.sublist_append_left
      [sampleUnspent "ta" 18446744073709551614 true,
       sampleUnspent "tb" 18446744073709551614 true]
      [sampleUnspent "tc" 3 true]).subperm,
    by decide, by decide⟩

/-- C9, amended. For every wallet state with consistent balances whose total
balances sum to less than `2 ^ 64`, and every amount of at least 1 for which
`Wallet.Unspents` succeeds, no sub-collection of the wallet's unspent outputs
with fewer elements than the returned list has total value at least the amount. -/
theorem Unspents_fewest (E : Collaborators) (S : SliceSorter) (hS : S.Valid) (w : Wallet)
    (sendAmount : Nat) (rsp : List UTXO) (hc : w.Consistent)
    (hsmall : storedTotal w.Address < uint64Size) (hpos : 1 ≤ sendAmount)
    (h : w.Unspents E S sendAmount = .ok rsp)
    (sub : List Unspent) (hsub : List.Subperm sub (heldUnspents w.Address))
    (hlen : sub.length < rsp.length) :
    unspentTotal sub < sendAmount := by
  obtain ⟨utxos, _, hv, _, hrsp⟩ := Unspents_ok E S w sendAmount rsp h
  obtain ⟨rest, hrest⟩ := patch_initial sendAmount (S.sort valueGreater utxos) 0
  rw [← hrsp] at hrest
  have hne : rsp ≠ [] := by
    intro hnil
    rw [hnil] at hlen
    simp at hlen
  -- the sorted candidates split into the returned list without its last element and a rest
  have hsplit : S.sort valueGreater utxos
      = rsp.dropLast ++ ([rsp.getLast hne] ++ rest) := by
    rw [← List.append_assoc, List.dropLast_append_getLast hne]
    exact hrest
  have hperm : List.Perm ((S.sort valueGreater utxos).map (fun u => u.Value))
      ((heldUnspents w.Address).map (fun u => u.Value)) := by
    rw [← hv]
    exact (hS.perm valueGreater utxos).map _
  -- the returned list without its last element is worth less than `2 ^ 64`
  have htotal : utxoTotal rsp.dropLast ≤ unspentTotal (heldUnspents w.Address) := by
    unfold utxoTotal unspentTotal
    rw [← hperm.sum_eq]
    conv => rhs; rw [hsplit, List.map_append, List.sum_append]
    omega
  have hst := storedTotal_consistent w.Address hc
  have hfits : utxoTotal rsp.dropLast < uint64Size := by omega
  have htight : utxoTotal rsp.dropLast < sendAmount := by
    have ht := patch_tight sendAmount (S.sort valueGreater utxos) 0 (by omega) (by decide)
    rw [← hrsp, Nat.zero_add, Nat.mod_eq_of_lt hfits] at ht
    exact ht
  -- a sub-collection with fewer elements is worth at most that much
  have hsubv : List.Subperm (sub.map (fun u => u.Value))
      ((S.sort valueGreater utxos).map (fun u => u.Value)) := by
    obtain ⟨l, hl, hsl⟩ := hsub
    exact List.Subperm.trans ⟨l.map (fun u => u.Value), hl.map _, hsl.map _⟩
      hperm.symm.subperm
  have hsorted : List.Pairwise (fun a b : Nat => a ≥ b)
      ((S.sort valueGreater utxos).map (fun u => u.Value)) :=
    List.pairwise_map.mpr (sorted_values S hS utxos)
  have hle := sum_le_sum_take _ hsorted _ hsubv (rsp.length - 1) (by
    rw [List.length_map]
    omega)
  have htake : List.take (rsp.length - 1) ((S.sort valueGreater utxos).map (fun u => u.Value))
      = rsp.dropLast.map (fun u => u.Value) := by
    rw [hsplit, List.map_append]
    exact List.take_left' (by simp)
  rw [htake] at hle
  unfold unspentTotal
  unfold utxoTotal at htight
  omega

/-- Witness of the amended C9: on the example wallet `Unspents(6000)` returns two
outputs, and the single output of 5000 does not cover 6000. -/
theorem Unspents_fewest_witness :
    exampleWallet.Unspents sampleCollaborators insertionSorter 6000
        = .ok [exampleUtxoA, exampleUtxoB]
      ∧ unspentTotal [sampleUnspent "ta" 5000 true] < 6000 :=
  ⟨rfl, Unspents_fewest sampleCollaborators insertionSorter insertionSorter_valid exampleWallet
    6000 [exampleUtxoA, exampleUtxoB] exampleWallet_consistent (by decide) (by decide) rfl
    [sampleUnspent "ta" 5000 true]
    (List.sublist_append_left [sampleUnspent "ta" 5000 true]
      [sampleUnspent "tb" 3000 false]).subperm
    (by decide)⟩

/-- C10. For every successful call of `Wallet.Unspents` the returned list is in
non-increasing order of value, and the candidates split into the returned list
and a rest (the outputs not returned) such that every output of the rest has a
value at most the value of every returned output; the candidates carry exactly
the values of the wallet's unspent outputs. -/
theorem Unspents_largest_first (E : Collaborators) (S : SliceSorter) (hS : S.Valid)
    (w : Wallet) (sendAmount : Nat) (rsp : List UTXO)
    (h : w.Unspents E S sendAmount = .ok rsp) :
    List.Pairwise (fun a b : UTXO => a.Value ≥ b.Value) rsp
      ∧ ∃ utxos rest,
          scanAddresses E w w.Address [] 0 = .ok (utxos, storedTotal w.Address % uint64Size)
            ∧ utxos.map (fun u => u.Value) = (heldUnspents w.Address).map (fun u => u.Value)
            ∧ List.Perm (rsp ++ rest) utxos
            ∧ ∀ r ∈ rsp, ∀ x ∈ rest, x.Value ≤ r.Value := by
  obtain ⟨utxos, hscan, hv, _, hrsp⟩ := Unspents_ok E S w sendAmount rsp h
  obtain ⟨rest, hrest⟩ := patch_initial sendAmount (S.sort valueGreater utxos) 0
  rw [← hrsp] at hrest
  have hsorted := sorted_values S hS utxos
  rw [hrest, List.pairwise_append] at hsorted
  refine ⟨hsorted.1, utxos, rest, hscan, hv, ?_, ?_⟩
  · rw [← hrest]
    exact hS.perm valueGreater utxos
  · intro r hr x hx
    exact hsorted.2.2 r hr x hx

/-- Witness of C10: on the example wallet `Unspents(4000)` returns the 5000 output
and leaves out the 3000 output. -/
theorem Unspents_largest_first_witness :
    exampleWallet.Unspents sampleCollaborators insertionSorter 4000 = .ok [exampleUtxoA]
      ∧ List.Pairwise (fun a b : UTXO => a.Value ≥ b.Value) [exampleUtxoA]
      ∧ ∃ utxos rest,
          scanAddresses sampleCollaborators exampleWallet exampleWallet.Address [] 0
              = .ok (utxos, storedTotal exampleWallet.Address % uint64Size)
            ∧ utxos.map (fun u => u.Value)
                = (heldUnspents exampleWallet.Address).map (fun u => u.Value)
            ∧ List.Perm ([exampleUtxoA] ++ rest) utxos
            ∧ ∀ r ∈ [exampleUtxoA], ∀ x ∈ rest, x.Value ≤ r.Value :=
  ⟨rfl, Unspents_largest_first sampleCollaborators insertionSorter insertionSorter_valid
    exampleWallet 4000 [exampleUtxoA] rfl⟩

/-! ## The selection is drawn from the wallet's unspent outputs -/

theorem appendUnspents_candidates (E : Collaborators) (w : Wallet) (addr : Address)
    (unspents : List Unspent) (utxos r : List UTXO)
    (h : appendUnspents E w addr unspents utxos = .ok r) :
    r.map UTXO.withoutKey = utxos.map UTXO.withoutKey ++ unspents.map (candidateOf addr)
      ∧ ∀ u ∈ r, u ∈ utxos
          ∨ E.createSvrChildPubKey u.Pos w.SvrMasterPrvKey w.net = .ok u.SvrPubKey := by
  induction unspents generalizing utxos with
  | nil =>
    simp only [appendUnspents, Except.ok.injEq] at h
    subst h
    exact ⟨by simp, fun u hu => Or.inl hu⟩
  | cons x rest ih =>
    unfold appendUnspents at h
    split at h
    · cases h
    · rename_i svrpubkey hkey
      obtain ⟨h1, h2⟩ := ih _ h
      refine ⟨?_, ?_⟩
      · rw [h1]
        simp [UTXO.withoutKey, candidateOf]
      · intro u hu
        rcases h2 u hu with hmem | hk
        · rcases List.mem_append.mp hmem with hmem | hmem
          · exact Or.inl hmem
          · right
            rw [List.mem_singleton] at hmem
            subst hmem
            exact hkey
        · exact Or.inr hk

theorem scanAddresses_candidates (E : Collaborators) (w : Wallet)
    (addrs : List (String × Address)) (utxos : List UTXO) (balance : Nat) (r : List UTXO)
    (b : Nat) (h : scanAddresses E w addrs utxos balance = .ok (r, b)) :
    r.map UTXO.withoutKey = utxos.map UTXO.withoutKey ++ heldCandidates addrs
      ∧ ∀ u ∈ r, u ∈ utxos
          ∨ E.createSvrChildPubKey u.Pos w.SvrMasterPrvKey w.net = .ok u.SvrPubKey := by
  induction addrs generalizing utxos balance with
  | nil =>
    simp only [scanAddresses, Except.ok.injEq, Prod.mk.injEq] at h
    obtain ⟨rfl, rfl⟩ := h
    exact ⟨by simp [heldCandidates], fun u hu => Or.inl hu⟩
  | cons p rest ih =>
    obtain ⟨k, addr⟩ := p
    unfold scanAddresses at h
    split at h
    · cases h
    · rename_i utxos' happ
      obtain ⟨a1, a2⟩ := appendUnspents_candidates E w addr addr.Unspents utxos utxos' happ
      obtain ⟨h1, h2⟩ := ih utxos' _ h
      refine ⟨?_, ?_⟩
      · rw [h1, a1]
        simp [heldCandidates]
      · intro u hu
        rcases h2 u hu with hmem | hk
        · exact a2 u hmem
        · exact Or.inr hk

/-- C11. For every successful call of `Wallet.Unspents` the returned list, server
public keys apart, is a sub-multiset of the candidates of the wallet's unspent
outputs: each returned output carries the txid, vout, value, confirmed flag and
script of a held unspent output together with the `Pos` and address string of
its address, and no held output is returned more often than it occurs; the
server public key of each returned output is the one derived for its `Pos`. -/
theorem Unspents_from_wallet (E : Collaborators) (S : SliceSorter) (hS : S.Valid)
    (w : Wallet) (sendAmount : Nat) (rsp : List UTXO)
    (h : w.Unspents E S sendAmount = .ok rsp) :
    List.Subperm (rsp.map UTXO.withoutKey) (heldCandidates w.Address)
      ∧ ∀ u ∈ rsp, E.createSvrChildPubKey u.Pos w.SvrMasterPrvKey w.net = .ok u.SvrPubKey := by
  obtain ⟨utxos, hscan, _, _, hrsp⟩ := Unspents_ok E S w sendAmount rsp h
  obtain ⟨rest, hrest⟩ := patch_initial sendAmount (S.sort valueGreater utxos) 0
  rw [← hrsp] at hrest
  obtain ⟨hc, hk⟩ := scanAddresses_candidates E w w.Address [] 0 utxos _ hscan
  have hperm : List.Perm (rsp ++ rest) utxos := by
    rw [← hrest]
    exact hS.perm valueGreater utxos
  constructor
  · have hsub : List.Sublist (rsp.map UTXO.withoutKey) ((rsp ++ rest).map UTXO.withoutKey) := by
      rw [List.map_append]
      exact List.sublist_append_left _ _
    have hp := hperm.map UTXO.withoutKey
    rw [hc] at hp
    exact hsub.subperm.trans (by simpa using hp.subperm)
  · intro u hu
    have hmem : u ∈ utxos := hperm.subset (List.mem_append_left _ hu)
    rcases hk u hmem with hnil | hkey
    · simp at hnil
    · exact hkey

/-- Witness of C11: on the example wallet `Unspents(4000)` returns the candidate of
the 5000 output held by address `A`. -/
theorem Unspents_from_wallet_witness :
    exampleWallet.Unspents sampleCollaborators insertionSorter 4000 = .ok [exampleUtxoA]
      ∧ List.Subperm ([exampleUtxoA].map UTXO.withoutKey) (heldCandidates exampleWallet.Address)
      ∧ ∀ u ∈ [exampleUtxoA],
          sampleCollaborators.createSvrChildPubKey u.Pos exampleWallet.SvrMasterPrvKey
            exampleWallet.net = .ok u.SvrPubKey :=
  ⟨rfl, Unspents_from_wallet sampleCollaborators insertionSorter insertionSorter_valid
    exampleWallet 4000 [exampleUtxoA] rfl⟩

/-! ## `Wallet.Txs` -/

theorem wrapInt64_of_range (x : Int) (h0 : 0 ≤ x) (h1 : x < 9223372036854775808) :
    wrapInt64 x = x := by
  unfold wrapInt64
  omega

/-- When `offset + limit` does not wrap, `Wallet.Txs` returns without a panic: nothing
for an offset at or past the number of transactions, and otherwise exactly
`min(limit, count - offset)` entries. -/
theorem Txs_page_length (S : SliceSorter) (hS : S.Valid) (w : Wallet) (offset limit : Int)
    (ho : 0 ≤ offset) (hl : 0 ≤ limit) (hsum : offset + limit < 9223372036854775808) :
    ∃ r, w.Txs S offset limit = some r
      ∧ (offset ≥ ((collectTxs w.Address []).length : Int) → r = [])
      ∧ (offset < ((collectTxs w.Address []).length : Int) →
          (r.length : Int) = min limit (((collectTxs w.Address []).length : Int) - offset)) := by
  have hlen : (S.sort txLess (collectTxs w.Address [])).length
      = (collectTxs w.Address []).length := (hS.perm txLess _).length_eq
  unfold Wallet.Txs
  simp only [hlen, wrapInt64_of_range (offset + limit) (by omega) hsum]
  by_cases h1 : offset ≥ ((collectTxs w.Address []).length : Int)
  · rw [if_pos h1]
    exact ⟨[], rfl, fun _ => rfl, fun h => by omega⟩
  · rw [if_neg h1]
    by_cases h2 : offset + limit > ((collectTxs w.Address []).length : Int)
    · rw [if_pos h2]
      unfold sliceFrom
      rw [if_pos ⟨ho, by omega⟩]
      refine ⟨_, rfl, fun h => absurd h h1, fun _ => ?_⟩
      rw [List.length_drop, hlen]
      omega
    · rw [if_neg h2]
      unfold sliceBetween
      rw [if_pos ⟨ho, by omega, by omega⟩]
      refine ⟨_, rfl, fun h => absurd h h1, fun _ => ?_⟩
      rw [List.length_take, List.length_drop, hlen]
      omega

/-- C12. The code departs from the claim at `Txs(1, 9223372036854775807)` on a wallet
holding 3 transactions: the offset is below the count and the claim asks for
`min(limit, 3 - 1) = 2` entries, but `offset + limit` wraps to a negative
number, the test `offset + limit > size` fails and the slice expression panics.
With the limit 2 the same page is returned. -/
theorem Txs_page_length_fails :
    (collectTxs historyWallet.Address []).length = 3
      ∧ min (9223372036854775807 : Int) (3 - 1) = 2
      ∧ historyWallet.Txs insertionSorter 1 9223372036854775807 = none
      ∧ historyWallet.Txs insertionSorter 1 2
          = some [sampleTx "t2" false 0, sampleTx "t3" true 2] :=
  ⟨rfl, by decide, rfl, rfl⟩

/-- The comparison of `Wallet.Txs` is not a strict weak ordering: an unconfirmed
transaction is "not less" in both directions against two confirmed ones that
are ordered, so `sort.Slice` promises no order for it. -/
theorem txLess_not_strictWeak : ¬ StrictWeakOrdering txLess := by
  intro h
  have := h.negTrans (sampleTx "t3" true 2) (sampleTx "t2" false 0) (sampleTx "t1" true 1)
    rfl rfl
  exact absurd this (by decide)

/-- C13. The code departs from the claim at `Txs(0, 3)` on a wallet whose
transactions arrive as confirmed at time 1, unconfirmed, confirmed at time 2:
the insertion sort that `sort.Slice` runs on a slice of three moves nothing,
because every comparison involves the unconfirmed transaction, and the confirmed
entries of the result have the block times 1, 2, which is increasing. -/
theorem Txs_confirmed_order_fails :
    historyWallet.Txs insertionSorter 0 3
        = some [sampleTx "t1" true 1, sampleTx "t2" false 0, sampleTx "t3" true 2]
      ∧ ([sampleTx "t1" true 1, sampleTx "t2" false 0, sampleTx "t3" true 2].filter
            (fun t => t.Confirmed)).map (fun t => t.BlockTime) = [1, 2]
      ∧ ¬ List.Pairwise (fun a b : Int => a ≥ b) [1, 2] :=
  ⟨rfl, rfl, by decide⟩

/-! ## `Wallet.NewAddress` and the derivation index -/

theorem NewAddress_ok (E : Collaborators) (w : Wallet) (typ addr : String)
    (h : E.createSharedAddress w.LastPos w.SvrMasterPrvKey w.CliMasterPubKey w.net typ = .ok addr) :
    w.NewAddress E typ
      = (.ok { Pos := w.LastPos, Address := addr },
         { w with Address := mapSet addr { Pos := w.LastPos, Address := addr } w.Address,
                  LastPos := (w.LastPos + 1) % uint32Size }) := by
  unfold Wallet.NewAddress
  simp only [h]

theorem NewAddress_error (E : Collaborators) (w : Wallet) (typ err : String)
    (h : E.createSharedAddress w.LastPos w.SvrMasterPrvKey w.CliMasterPubKey w.net typ
      = .error err) :
    w.NewAddress E typ = (.error (.collaborator err), w) := by
  unfold Wallet.NewAddress
  simp only [h]

theorem newAddressRun_positions (E : Collaborators) (w : Wallet) (typs : List String)
    (hroom : w.LastPos + typs.length < uint32Size) :
    (newAddressRun E w typs).2.LastPos
        = w.LastPos + (assignedPositions (newAddressRun E w typs).1).length
      ∧ assignedPositions (newAddressRun E w typs).1
          = List.range' w.LastPos (assignedPositions (newAddressRun E w typs).1).length := by
  induction typs generalizing w with
  | nil => simp [newAddressRun, assignedPositions]
  | cons typ rest ih =>
    simp only [List.length_cons] at hroom
    cases hc : E.createSharedAddress w.LastPos w.SvrMasterPrvKey w.CliMasterPubKey w.net typ with
    | error err =>
      have hstep := NewAddress_error E w typ err hc
      have := ih w (by omega)
      simp only [newAddressRun, hstep, assignedPositions]
      exact this
    | ok addr =>
      have hstep := NewAddress_ok E w typ addr hc
      have hmod : (w.LastPos + 1) % uint32Size = w.LastPos + 1 :=
        Nat.mod_eq_of_lt (by omega)
      have := ih { w with Address := mapSet addr { Pos := w.LastPos, Address := addr } w.Address,
                          LastPos := (w.LastPos + 1) % uint32Size } (by simp only [hmod]; omega)
      simp only [newAddressRun, hstep, assignedPositions, List.length_cons, hmod] at this ⊢
      obtain ⟨h1, h2⟩ := this
      refine ⟨by omega, ?_⟩
      rw [List.range'_succ]
      rw [← h2]

/-- C14 as stated fails: starting from a wallet whose `LastPos` is `2 ^ 32 - 1` and
which holds the address of position 0, two successful `NewAddress` calls hand
out the positions `2 ^ 32 - 1` and 0: `LastPos` wraps to 0, below its previous
value, and position 0 is assigned a second time. -/
theorem NewAddress_lastPos_counterexample :
    newAddressRun constantCollaborators lastPosWallet ["", ""]
        = ([.ok { Pos := 4294967295, Address := "A" }, .ok { Pos := 0, Address := "A" }],
           { LastPos := 1
             Address := [("Z", { Pos := 0, Address := "Z" }),
                         ("A", { Pos := 0, Address := "A" })] })
      ∧ (lastPosWallet.NewAddress constantCollaborators "").2.LastPos = 0
      ∧ lastPosWallet.LastPos = 4294967295 :=
  ⟨rfl, rfl, rfl⟩

/-- C14, amended. A `NewAddress` call whose derivation succeeds returns an address
whose `Pos` is the previous `LastPos` and sets `LastPos` to the previous value
plus 1 modulo `2 ^ 32`; a call whose derivation fails leaves the whole wallet,
`LastPos` and address map included, unchanged.  Hence in every sequence of
calls that starts with `LastPos + (number of calls) < 2 ^ 32`, `LastPos` grows
by exactly 1 per successful call and the positions handed out are the
consecutive values from the initial `LastPos` on: increasing, never repeated,
and all below the final `LastPos`. -/
theorem NewAddress_lastPos (E : Collaborators) (w : Wallet) (typs : List String) :
    (∀ typ addr,
        E.createSharedAddress w.LastPos w.SvrMasterPrvKey w.CliMasterPubKey w.net typ = .ok addr →
        (w.NewAddress E typ).1 = .ok { Pos := w.LastPos, Address := addr }
          ∧ (w.NewAddress E typ).2.LastPos = (w.LastPos + 1) % uint32Size)
      ∧ (∀ typ err,
          E.createSharedAddress w.LastPos w.SvrMasterPrvKey w.CliMasterPubKey w.net typ
            = .error err →
          (w.NewAddress E typ).2 = w)
      ∧ (w.LastPos + typs.length < uint32Size →
          (newAddressRun E w typs).2.LastPos
              = w.LastPos + (assignedPositions (newAddressRun E w typs).1).length
            ∧ assignedPositions (newAddressRun E w typs).1
                = List.range' w.LastPos (assignedPositions (newAddressRun E w typs).1).length
            ∧ List.Pairwise (fun a b => a < b) (assignedPositions (newAddressRun E w typs).1)
            ∧ ∀ pos ∈ assignedPositions (newAddressRun E w typs).1,
                w.LastPos ≤ pos ∧ pos < (newAddressRun E w typs).2.LastPos) := by
  refine ⟨?_, ?_, ?_⟩
  · intro typ addr h
    rw [NewAddress_ok E w typ addr h]
    exact ⟨rfl, rfl⟩
  · intro typ err h
    rw [NewAddress_error E w typ err h]
  · intro hroom
    obtain ⟨h1, h2⟩ := newAddressRun_positions E w typs hroom
    refine ⟨h1, h2, ?_, ?_⟩
    · rw [h2]
      exact List.pairwise_lt_range' _ _
    · intro pos hpos
      rw [h2, List.mem_range'_1] at hpos
      omega

/-- Witness of the amended C14: two calls on a new wallet hand out the positions 0
and 1 and leave `LastPos` at 2; a failing call changes nothing. -/
theorem NewAddress_lastPos_witness :
    (newAddressRun sampleCollaborators NewWallet ["", ""]).2.LastPos = 0 + 2
      ∧ assignedPositions (newAddressRun sampleCollaborators NewWallet ["", ""]).1 = [0, 1]
      ∧ (exampleWallet.NewAddress failingCollaborators "").2 = exampleWallet :=
  ⟨((NewAddress_lastPos sampleCollaborators NewWallet ["", ""]).2.2 (by decide)).1,
    ((NewAddress_lastPos sampleCollaborators NewWallet ["", ""]).2.2 (by decide)).2.1,
    (NewAddress_lastPos failingCollaborators exampleWallet []).2.1 "" "derivation failed" rfl⟩

/-! ## Positions held by reachable wallets -/

theorem repeatedWallet_step (n : Nat) :
    ((repeatedWallet n).NewAddress constantCollaborators "").2 = repeatedWallet (n + 1) := by
  have hmod : ((n + 1) % uint32Size + 1) % uint32Size = (n + 1 + 1) % uint32Size := by
    simp only [uint32Size]
    omega
  simp [Wallet.NewAddress, constantCollaborators, repeatedWallet, mapSet, hmod]

/-- After any number of calls with a derivation that always returns `A`, the wallet is
the one-entry state `repeatedWallet`. -/
theorem repeatedWallet_reachable (n : Nat) :
    Reachable constantCollaborators (repeatedWallet n) := by
  induction n with
  | zero => exact Reachable.newAddress NewWallet "" Reachable.newWallet
  | succ n ih =>
    rw [← repeatedWallet_step n]
    exact Reachable.newAddress _ "" ih

theorem mapSet_positions (key : String) (value : Address) (addrs : List (String × Address))
    (pos : Nat) (h : pos ∈ positions (mapSet key value addrs)) :
    pos = value.Pos ∨ pos ∈ positions addrs := by
  unfold positions at h ⊢
  obtain ⟨p, hp, rfl⟩ := List.mem_map.mp h
  rcases mem_mapSet key value addrs p hp with hp | hp
  · left
    rw [hp]
  · right
    exact List.mem_map.mpr ⟨p, hp, rfl⟩

theorem mapSet_nodup (key : String) (value : Address) (addrs : List (String × Address))
    (hn : (positions addrs).Nodup) (hfresh : value.Pos ∉ positions addrs) :
    (positions (mapSet key value addrs)).Nodup := by
  induction addrs with
  | nil => simp [mapSet, positions]
  | cons p rest ih =>
    obtain ⟨k, x⟩ := p
    have hn' : x.Pos ∉ positions rest ∧ (positions rest).Nodup := by
      simpa [positions] using hn
    have hfresh' : value.Pos ≠ x.Pos ∧ value.Pos ∉ positions rest := by
      simpa [positions] using hfresh
    unfold mapSet
    split
    · simp only [positions, List.map_cons, List.nodup_cons]
      exact ⟨hfresh'.2, hn'.2⟩
    · have hrec := ih hn'.2 hfresh'.2
      simp only [positions, List.map_cons, List.nodup_cons]
      refine ⟨?_, hrec⟩
      intro hmem
      rcases mapSet_positions key value rest x.Pos hmem with h | h
      · exact hfresh'.1 h.symm
      · exact hn'.1 h

theorem mapModify_positions (addr : String) (f : Address → Address)
    (hf : ∀ a, (f a).Pos = a.Pos) (addrs : List (String × Address)) :
    positions (mapModify addr f addrs) = positions addrs := by
  induction addrs with
  | nil => rfl
  | cons p rest ih =>
    obtain ⟨k, x⟩ := p
    unfold mapModify
    split
    · simp [positions, hf]
    · simp only [positions, List.map_cons] at ih ⊢
      rw [ih]

/-- While fewer than `2 ^ 32` calls of `NewAddress` were made, `LastPos` is at most
the number of calls, every held position is below it, and no position occurs twice. -/
theorem within_positions (E : Collaborators) (n : Nat) (w : Wallet)
    (h : ReachableWithin E n w) (hn : n < uint32Size) :
    w.LastPos ≤ n ∧ (∀ pos ∈ positions w.Address, pos < w.LastPos)
      ∧ (positions w.Address).Nodup := by
  induction h with
  | newWallet => simp [NewWallet, positions]
  | newAddress n w typ _ ih =>
    obtain ⟨h1, h2, h3⟩ := ih (by omega)
    cases hc : E.createSharedAddress w.LastPos w.SvrMasterPrvKey w.CliMasterPubKey w.net typ with
    | error err =>
      rw [NewAddress_error E w typ err hc]
      exact ⟨Nat.le_succ_of_le h1, h2, h3⟩
    | ok addr =>
      rw [NewAddress_ok E w typ addr hc]
      have hmod : (w.LastPos + 1) % uint32Size = w.LastPos + 1 :=
        Nat.mod_eq_of_lt (by omega)
      simp only [hmod]
      refine ⟨by omega, ?_, ?_⟩
      · intro pos hpos
        rcases mapSet_positions _ _ _ pos hpos with h | h
        · simp only at h
          omega
        · have := h2 pos h
          omega
      · apply mapSet_nodup _ _ _ h3
        intro hmem
        have := h2 _ hmem
        simp only at this
        omega
  | updateUnspents n w w' addr unspents _ hu ih =>
    obtain ⟨h1, h2, h3⟩ := ih hn
    unfold Wallet.UpdateUnspents at hu
    split at hu
    · cases hu
    · simp only [Option.some.injEq] at hu
      subst hu
      have hpos := mapModify_positions addr (fun a => a.setUnspents unspents)
        (fun a => rfl) w.Address
      simp only
      rw [hpos]
      exact ⟨h1, h2, h3⟩
  | updateTxs n w w' addr txs _ hu ih =>
    obtain ⟨h1, h2, h3⟩ := ih hn
    unfold Wallet.UpdateTxs at hu
    split at hu
    · cases hu
    · simp only [Option.some.injEq] at hu
      subst hu
      have hpos := mapModify_positions addr (fun a => { a with Txs := txs })
        (fun a => rfl) w.Address
      simp only
      rw [hpos]
      exact ⟨h1, h2, h3⟩
  | reorder n w addrs _ hperm ih =>
    obtain ⟨h1, h2, h3⟩ := ih hn
    have hp : List.Perm (positions addrs) (positions w.Address) := hperm.map _
    exact ⟨h1, fun pos hpos => h2 pos (hp.mem_iff.mp hpos), hp.nodup_iff.mpr h3⟩

/-- The two notions of reachability agree. -/
theorem reachable_iff_within (E : Collaborators) (w : Wallet) :
    Reachable E w ↔ ∃ n, ReachableWithin E n w := by
  constructor
  · intro h
    induction h with
    | newWallet => exact ⟨0, ReachableWithin.newWallet⟩
    | newAddress w typ _ ih =>
      obtain ⟨n, hn⟩ := ih
      exact ⟨n + 1, ReachableWithin.newAddress n w typ hn⟩
    | updateUnspents w w' addr unspents _ hu ih =>
      obtain ⟨n, hn⟩ := ih
      exact ⟨n, ReachableWithin.updateUnspents n w w' addr unspents hn hu⟩
    | updateTxs w w' addr txs _ hu ih =>
      obtain ⟨n, hn⟩ := ih
      exact ⟨n, ReachableWithin.updateTxs n w w' addr txs hn hu⟩
    | reorder w addrs _ hperm ih =>
      obtain ⟨n, hn⟩ := ih
      exact ⟨n, ReachableWithin.reorder n w addrs hn hperm⟩
  · rintro ⟨n, h⟩
    induction h with
    | newWallet => exact Reachable.newWallet
    | newAddress n w typ _ ih => exact Reachable.newAddress w typ ih
    | updateUnspents n w w' addr unspents _ hu ih =>
      exact Reachable.updateUnspents w w' addr unspents ih hu
    | updateTxs n w w' addr txs _ hu ih => exact Reachable.updateTxs w w' addr txs ih hu
    | reorder n w addrs _ hperm ih => exact Reachable.reorder w addrs ih hperm

/-- C15 as stated fails: with a derivation that always returns `A`, the state after
`2 ^ 32` calls of `NewAddress` on a new wallet is reachable; its `LastPos` has
wrapped to 0 while its address holds the position `2 ^ 32 - 1`. -/
theorem positions_reachable_counterexample :
    Reachable constantCollaborators (repeatedWallet 4294967295)
      ∧ repeatedWallet 4294967295
          = { LastPos := 0, Address := [("A", { Pos := 4294967295, Address := "A" })] }
      ∧ ¬ (4294967295 < 0) :=
  ⟨repeatedWallet_reachable 4294967295, rfl, by decide⟩

/-- C15, amended. In every wallet state reachable from `NewWallet` by a sequence of
`NewAddress`, `UpdateUnspents` and `UpdateTxs` calls that contains fewer than
`2 ^ 32` calls of `NewAddress`, every address in the map has a `Pos` strictly
below `LastPos` and no two addresses in the map share a `Pos`, whatever strings
the derivation returns. -/
theorem positions_reachable (E : Collaborators) (n : Nat) (w : Wallet)
    (h : ReachableWithin E n w) (hn : n < uint32Size) :
    (∀ p ∈ w.Address, p.2.Pos < w.LastPos)
      ∧ List.Pairwise (fun p q : String × Address => p.2.Pos ≠ q.2.Pos) w.Address := by
  obtain ⟨_, h2, h3⟩ := within_positions E n w h hn
  refine ⟨fun p hp => h2 p.2.Pos (List.mem_map.mpr ⟨p, hp, rfl⟩), ?_⟩
  unfold positions List.Nodup at h3
  exact List.pairwise_map.mp h3

theorem exampleWallet_within : ReachableWithin sampleCollaborators 2 exampleWallet :=
  ReachableWithin.updateUnspents 2 _ exampleWallet "B" [sampleUnspent "tb" 3000 false]
    (ReachableWithin.updateUnspents 2 _
      { LastPos := 2
        Address :=
          [("A", { Pos := 0, Address := "A", Balance := ⟨5000, 0⟩,
                   Unspents := [sampleUnspent "ta" 5000 true] }),
           ("B", { Pos := 1, Address := "B" })] }
      "A" [sampleUnspent "ta" 5000 true]
      (ReachableWithin.newAddress 1 _ ""
        (ReachableWithin.newAddress 0 NewWallet "" ReachableWithin.newWallet)) rfl) rfl

/-- Witness of the amended C15: the example wallet, reached with two `NewAddress`
calls, holds the positions 0 and 1 below its `LastPos` 2. -/
theorem positions_reachable_witness :
    ReachableWithin sampleCollaborators 2 exampleWallet
      ∧ (∀ p ∈ exampleWallet.Address, p.2.Pos < 2)
      ∧ List.Pairwise (fun p q : String × Address => p.2.Pos ≠ q.2.Pos) exampleWallet.Address :=
  ⟨exampleWallet_within,
    positions_reachable sampleCollaborators 2 exampleWallet exampleWallet_within (by decide)⟩

/-! ## `Wallet.UpdateUnspents` and `Wallet.UpdateTxs`: unknown addresses and frame -/

/-- On an address that is not a key of the map the lookup yields nil, and both
update operations panic at the first use of the pointer. -/
theorem update_unknown_panics (w : Wallet) (addr : String) (unspents : List Unspent)
    (txs : List Tx) (h : w.lookup addr = none) :
    w.UpdateUnspents addr unspents = none ∧ w.UpdateTxs addr txs = none := by
  unfold Wallet.UpdateUnspents Wallet.UpdateTxs
  rw [h]
  exact ⟨rfl, rfl⟩

/-- C16. The code departs from the claim on the example wallet (keys `A` and `B`) at
the address `X`: `w.Address["X"]` is nil, and `UpdateUnspents("X", ...)` and
`UpdateTxs("X", ...)` panic on `address.mu.Lock()` instead of returning with
the wallet unchanged. -/
theorem Update_unknown_address_fails :
    exampleWallet.Addresses = ["A", "B"]
      ∧ exampleWallet.lookup "X" = none
      ∧ exampleWallet.UpdateUnspents "X" [sampleUnspent "tx" 1 true] = none
      ∧ exampleWallet.UpdateTxs "X" [sampleTx "tx" true 1] = none
      ∧ exampleWallet.UpdateUnspents "X" [sampleUnspent "tx" 1 true] ≠ some exampleWallet :=
  ⟨rfl, rfl, rfl, rfl, by decide⟩

theorem lookup_mapModify_other (addr k : String) (f : Address → Address)
    (addrs : List (String × Address)) (hk : k ≠ addr) :
    List.lookup k (mapModify addr f addrs) = List.lookup k addrs := by
  induction addrs with
  | nil => rfl
  | cons p rest ih =>
    obtain ⟨key, v⟩ := p
    unfold mapModify
    split
    · rename_i hkey
      have hne : (k == key) = false := by
        simp only [beq_eq_false_iff_ne, ne_eq]
        exact fun h => hk (h.trans hkey)
      simp [List.lookup, hne]
    · by_cases hkk : k = key
      · subst hkk
        simp [List.lookup]
      · have hne : (k == key) = false := by
          simp only [beq_eq_false_iff_ne, ne_eq]
          exact hkk
        simp [List.lookup, hne, ih]

theorem mapModify_keys (addr : String) (f : Address → Address)
    (addrs : List (String × Address)) :
    (mapModify addr f addrs).map Prod.fst = addrs.map Prod.fst := by
  induction addrs with
  | nil => rfl
  | cons p rest ih =>
    obtain ⟨key, v⟩ := p
    unfold mapModify
    split
    · rfl
    · simp only [List.map_cons, ih]

/-- A write through the pointer stored under `addr` changes one entry of the map. -/
theorem mapModify_split (addr : String) (f : Address → Address)
    (addrs : List (String × Address)) (a : Address) (h : List.lookup addr addrs = some a) :
    ∃ before after, addrs = before ++ (addr, a) :: after
      ∧ mapModify addr f addrs = before ++ (addr, f a) :: after := by
  induction addrs with
  | nil => simp [List.lookup] at h
  | cons p rest ih =>
    obtain ⟨key, v⟩ := p
    unfold mapModify
    by_cases hkey : key = addr
    · subst hkey
      simp only [List.lookup, beq_self_eq_true, Option.some.injEq] at h
      subst h
      exact ⟨[], rest, rfl, by simp⟩
    · have hne : (addr == key) = false := by
        simp only [beq_eq_false_iff_ne, ne_eq]
        exact fun h => hkey h.symm
      simp only [List.lookup, hne] at h
      obtain ⟨before, after, h1, h2⟩ := ih h
      refine ⟨(key, v) :: before, after, by rw [h1]; rfl, ?_⟩
      rw [if_neg hkey, h2]
      rfl

/-- C17. On a known address, `UpdateUnspents(addr, U)` leaves the record of `addr`
with exactly `U` as its unspent outputs and its previous `Txs`, `Pos` and
address string, and `UpdateTxs(addr, T)` leaves it with exactly `T` as its
transactions and its previous unspent outputs, balance, `Pos` and address
string; in both cases `LastPos` and the other wallet fields, the keys of the
map and every other record of the map are unchanged. -/
theorem Update_frame (w : Wallet) (addr : String) (a : Address) (unspents : List Unspent)
    (txs : List Tx) (h : w.lookup addr = some a) :
    (∃ w' a', w.UpdateUnspents addr unspents = some w' ∧ w'.lookup addr = some a'
        ∧ a'.Unspents = unspents ∧ a'.Txs = a.Txs ∧ a'.Pos = a.Pos ∧ a'.Address = a.Address
        ∧ w'.LastPos = w.LastPos ∧ w' = { w with Address := w'.Address }
        ∧ w'.Addresses = w.Addresses
        ∧ (∀ k, k ≠ addr → w'.lookup k = w.lookup k)
        ∧ ∃ before after, w.Address = before ++ (addr, a) :: after
            ∧ w'.Address = before ++ (addr, a') :: after)
      ∧ (∃ w' a', w.UpdateTxs addr txs = some w' ∧ w'.lookup addr = some a'
          ∧ a'.Txs = txs ∧ a'.Unspents = a.Unspents ∧ a'.Balance = a.Balance
          ∧ a'.Pos = a.Pos ∧ a'.Address = a.Address
          ∧ w'.LastPos = w.LastPos ∧ w' = { w with Address := w'.Address }
          ∧ w'.Addresses = w.Addresses
          ∧ (∀ k, k ≠ addr → w'.lookup k = w.lookup k)
          ∧ ∃ before after, w.Address = before ++ (addr, a) :: after
              ∧ w'.Address = before ++ (addr, a') :: after) := by
  have hl : List.lookup addr w.Address = some a := h
  constructor
  · refine ⟨{ w with Address := mapModify addr (fun a => a.setUnspents unspents) w.Address },
      a.setUnspents unspents, ?_, ?_, rfl, rfl, rfl, rfl, rfl, rfl, ?_, ?_, ?_⟩
    · unfold Wallet.UpdateUnspents
      rw [h]
    · unfold Wallet.lookup
      simp only
      rw [lookup_mapModify, hl]
      rfl
    · unfold Wallet.Addresses
      exact mapModify_keys _ _ _
    · intro k hk
      unfold Wallet.lookup
      exact lookup_mapModify_other addr k _ _ hk
    · exact mapModify_split addr _ w.Address a hl
  · refine ⟨{ w with Address := mapModify addr (fun a => { a with Txs := txs }) w.Address },
      { a with Txs := txs }, ?_, ?_, rfl, rfl, rfl, rfl, rfl, rfl, rfl, ?_, ?_, ?_⟩
    · unfold Wallet.UpdateTxs
      rw [h]
    · unfold Wallet.lookup
      simp only
      rw [lookup_mapModify, hl]
      rfl
    · unfold Wallet.Addresses
      exact mapModify_keys _ _ _
    · intro k hk
      unfold Wallet.lookup
      exact lookup_mapModify_other addr k _ _ hk
    · exact mapModify_split addr _ w.Address a hl

/-- Witness of C17: replacing the unspent outputs of address `A` of the example
wallet leaves the record of `B`, the keys and `LastPos` as they were. -/
theorem Update_frame_witness :
    exampleWallet.lookup "A"
        = some { Pos := 0, Address := "A", Balance := ⟨5000, 0⟩,
                 Unspents := [sampleUnspent "ta" 5000 true] }
      ∧ ∃ w' a', exampleWallet.UpdateUnspents "A" [sampleUnspent "t9" 70 true] = some w'
          ∧ w'.lookup "A" = some a'
          ∧ a'.Unspents = [sampleUnspent "t9" 70 true]
          ∧ w'.LastPos = 2
          ∧ w'.Addresses = ["A", "B"]
          ∧ w'.lookup "B" = exampleWallet.lookup "B" :=
  ⟨rfl,
    match (Update_frame exampleWallet "A"
      { Pos := 0, Address := "A", Balance := ⟨5000, 0⟩,
        Unspents := [sampleUnspent "ta" 5000 true] }
      [sampleUnspent "t9" 70 true] [] rfl).1 with
    | ⟨w', a', h1, h2, h3, _, _, _, h7, _, h9, h10, _⟩ =>
      ⟨w', a', h1, h2, h3, h7, h9, h10 "B" (by decide)⟩⟩

/-! ## The fee of `Wallet.SendFees` -/

theorem floor_div_thousand (x : Int) : ⌊(x : ℚ) / 1000⌋ = x / 1000 := by
  have := Rat.floor_intCast_div_natCast x 1000
  simpa using this

theorem computeFees_floor (E : Collaborators) (inputs : Nat) (feesPerKB : Int)
    (h0 : 0 ≤ E.EstimateNormalSize (inputs : Int) 2 * feesPerKB)
    (h1 : E.EstimateNormalSize (inputs : Int) 2 * feesPerKB < 9223372036854775808) :
    (computeFees E inputs feesPerKB : Int)
      = ⌊((E.EstimateNormalSize (inputs : Int) 2 * feesPerKB : Int) : ℚ) / 1000⌋ := by
  rw [floor_div_thousand]
  unfold computeFees toUint64
  have h2 : ((1 : Int) + 1) = 2 := rfl
  simp only [h2]
  rw [wrapInt64_of_range _ h0 h1, Int.tdiv_eq_ediv h0 (by decide)]
  omega

/-- C18 as stated fails: on the example wallet with `sendValue` 4000 the selector
returns one output, the estimated size is 226, and with the fee rate -1 the fee
is 0 (Go's division truncates towards zero and the result is a `uint64`),
while `floor(226 * -1 / 1000)` is -1. -/
theorem SendFees_fee_formula_counterexample :
    exampleWallet.Unspents sampleCollaborators insertionSorter 4000 = .ok [exampleUtxoA]
      ∧ sampleCollaborators.EstimateNormalSize 1 2 = 226
      ∧ exampleWallet.SendFees sampleCollaborators insertionSorter 4000 (-1)
          = .ok { Fees := 0, TotalValue := 8000, SendableValue := 4000 }
      ∧ ⌊(((226 : Int) * (-1) : Int) : ℚ) / 1000⌋ = -1
      ∧ ((0 : Nat) : Int) ≠ -1 := by
  refine ⟨rfl, rfl, rfl, ?_, by decide⟩
  rw [floor_div_thousand]
  decide

/-- C18, amended. Whenever the coin selector succeeds and the product of the
estimated size (for `inputCount` = number of selected outputs and
`outputCount` = 2) and `feesPerKB` is non-negative and below `2 ^ 63`, the fee
computed by `Wallet.SendFees` equals `floor(size * feesPerKB / 1000)`; it is
the `Fees` of a successful result and the fee reported by a failure. -/
theorem SendFees_fee_formula (E : Collaborators) (S : SliceSorter) (w : Wallet)
    (sendValue : Nat) (feesPerKB : Int) (unspents : List UTXO)
    (hu : w.Unspents E S sendValue = .ok unspents)
    (h0 : 0 ≤ E.EstimateNormalSize (unspents.length : Int) 2 * feesPerKB)
    (h1 : E.EstimateNormalSize (unspents.length : Int) 2 * feesPerKB < 9223372036854775808) :
    (computeFees E unspents.length feesPerKB : Int)
        = ⌊((E.EstimateNormalSize (unspents.length : Int) 2 * feesPerKB : Int) : ℚ) / 1000⌋
      ∧ (∀ r, w.SendFees E S sendValue feesPerKB = .ok r →
          r.Fees = computeFees E unspents.length feesPerKB)
      ∧ (∀ err, w.SendFees E S sendValue feesPerKB = .error err →
          err = .feesExceedBalance w.Balance.TotalBalance
            (computeFees E unspents.length feesPerKB)) := by
  refine ⟨computeFees_floor E unspents.length feesPerKB h0 h1, ?_, ?_⟩
  · intro r hr
    unfold Wallet.SendFees at hr
    rw [hu] at hr
    simp only at hr
    split at hr
    · cases hr
    · simp only [Except.ok.injEq] at hr
      rw [← hr]
  · intro err herr
    unfold Wallet.SendFees at herr
    rw [hu] at herr
    simp only at herr
    split at herr
    · simp only [Except.error.injEq] at herr
      exact herr.symm
    · cases herr

/-- Witness of the amended C18: the specification's example, 374 bytes at 1337 per
KB, gives the fee `floor(374 * 1337 / 1000)` = 500. -/
theorem SendFees_fee_formula_witness :
    exampleWallet.Unspents sampleCollaborators insertionSorter 8000
        = .ok [exampleUtxoA, exampleUtxoB]
      ∧ ((500 : Nat) : Int) = ⌊(((374 : Int) * 1337 : Int) : ℚ) / 1000⌋ :=
  ⟨rfl, (SendFees_fee_formula sampleCollaborators insertionSorter exampleWallet 8000 1337
    [exampleUtxoA, exampleUtxoB] rfl (by decide) (by decide)).1⟩

/-! ## The values selected do not depend on iteration order or on the sort -/

theorem appendUnspents_ok_iff (E : Collaborators) (w : Wallet) (addr : Address)
    (unspents : List Unspent) (utxos : List UTXO) :
    (∃ r, appendUnspents E w addr unspents utxos = .ok r)
      ↔ (unspents = []
          ∨ ∃ key, E.createSvrChildPubKey addr.Pos w.SvrMasterPrvKey w.net = .ok key) := by
  constructor
  · rintro ⟨r, hr⟩
    cases unspents with
    | nil => exact Or.inl rfl
    | cons u rest =>
      right
      unfold appendUnspents at hr
      split at hr
      · cases hr
      · rename_i key hkey
        exact ⟨key, hkey⟩
  · rintro (h | ⟨key, hkey⟩)
    · subst h
      exact ⟨utxos, rfl⟩
    · exact appendUnspents_succeeds E w addr key hkey unspents utxos

theorem scanAddresses_ok_iff (E : Collaborators) (w : Wallet)
    (addrs : List (String × Address)) (utxos : List UTXO) (balance : Nat) :
    (∃ r b, scanAddresses E w addrs utxos balance = .ok (r, b)) ↔ ScanDerivable E w addrs := by
  induction addrs generalizing utxos balance with
  | nil =>
    constructor
    · intro _ p hp
      simp at hp
    · intro _
      exact ⟨utxos, balance, rfl⟩
  | cons p rest ih =>
    obtain ⟨k, addr⟩ := p
    constructor
    · rintro ⟨r, b, h⟩
      unfold scanAddresses at h
      split at h
      · cases h
      · rename_i utxos' happ
        have hhead := (appendUnspents_ok_iff E w addr addr.Unspents utxos).mp ⟨utxos', happ⟩
        have htail := (ih utxos' _).mp ⟨r, b, h⟩
        intro q hq
        rcases List.mem_cons.mp hq with rfl | hq
        · exact hhead
        · exact htail q hq
    · intro h
      obtain ⟨utxos', happ⟩ := (appendUnspents_ok_iff E w addr addr.Unspents utxos).mpr
        (h (k, addr) (List.mem_cons_self _ _))
      obtain ⟨r, b, hr⟩ := (ih utxos' ((balance + addr.Balance.TotalBalance) % uint64Size)).mpr
        (fun q hq => h q (List.mem_cons_of_mem _ hq))
      refine ⟨r, b, ?_⟩
      unfold scanAddresses
      rw [happ]
      exact hr

/-- `Wallet.Unspents` succeeds exactly when the derivations it performs succeed and
the `uint64` balance covers the amount. -/
theorem Unspents_succeeds_iff (E : Collaborators) (S : SliceSorter) (w : Wallet)
    (sendAmount : Nat) :
    (∃ rsp, w.Unspents E S sendAmount = .ok rsp)
      ↔ (ScanDerivable E w w.Address ∧ sendAmount ≤ storedTotal w.Address % uint64Size) := by
  constructor
  · rintro ⟨rsp, h⟩
    obtain ⟨utxos, hscan, _, hle, _⟩ := Unspents_ok E S w sendAmount rsp h
    exact ⟨(scanAddresses_ok_iff E w w.Address [] 0).mp ⟨utxos, _, hscan⟩, hle⟩
  · rintro ⟨hd, hle⟩
    obtain ⟨utxos, b, hscan⟩ := (scanAddresses_ok_iff E w w.Address [] 0).mpr hd
    obtain ⟨_, hb⟩ := scanAddresses_ok E w w.Address [] 0 utxos b (by decide) hscan
    simp only [Nat.zero_add] at hb
    unfold Wallet.Unspents
    rw [hscan]
    simp only
    rw [if_neg (by omega)]
    exact ⟨_, rfl⟩

theorem Unspents_error_iff_not_ok (E : Collaborators) (S : SliceSorter) (w : Wallet)
    (sendAmount : Nat) :
    (∃ err, w.Unspents E S sendAmount = .error err)
      ↔ ¬ ∃ rsp, w.Unspents E S sendAmount = .ok rsp := by
  cases h : w.Unspents E S sendAmount with
  | error err => simp
  | ok rsp => simp

theorem heldUnspents_perm (addrs₁ addrs₂ : List (String × Address))
    (h : List.Perm addrs₁ addrs₂) :
    List.Perm (heldUnspents addrs₁) (heldUnspents addrs₂) := by
  induction h with
  | nil => exact List.Perm.refl _
  | cons p _ ih =>
    obtain ⟨k, a⟩ := p
    exact List.Perm.append_left _ ih
  | swap p q l =>
    obtain ⟨k, a⟩ := p
    obtain ⟨k', a'⟩ := q
    simp only [heldUnspents]
    rw [← List.append_assoc, ← List.append_assoc]
    exact List.Perm.append_right _ List.perm_append_comm
  | trans _ _ ih₁ ih₂ => exact ih₁.trans ih₂

theorem storedTotal_perm (addrs₁ addrs₂ : List (String × Address))
    (h : List.Perm addrs₁ addrs₂) : storedTotal addrs₁ = storedTotal addrs₂ := by
  induction h with
  | nil => rfl
  | cons p _ ih =>
    obtain ⟨k, a⟩ := p
    simp only [storedTotal, ih]
  | swap p q l =>
    obtain ⟨k, a⟩ := p
    obtain ⟨k', a'⟩ := q
    simp only [storedTotal]
    omega
  | trans _ _ ih₁ ih₂ => exact ih₁.trans ih₂

/-- The greedy loop picks values that depend only on the values it is given. -/
theorem patch_values (sendAmount : Nat) (xs ys : List UTXO) (thresh : Nat)
    (h : xs.map (fun u => u.Value) = ys.map (fun u => u.Value)) :
    (patch sendAmount xs thresh []).map (fun u => u.Value)
      = (patch sendAmount ys thresh []).map (fun u => u.Value) := by
  induction xs generalizing ys thresh with
  | nil =>
    cases ys with
    | nil => rfl
    | cons y tl => simp at h
  | cons x tl ih =>
    cases ys with
    | nil => simp at h
    | cons y tl' =>
      simp only [List.map_cons, List.cons.injEq] at h
      obtain ⟨hv, ht⟩ := h
      rw [patch_cons, patch_cons, hv]
      split
      · simp [hv]
      · simp only [List.map_cons, hv]
        rw [ih tl' _ ht]

/-- Two lists of values in non-increasing order with the same elements are equal. -/
theorem sorted_values_unique (l₁ l₂ : List Nat) (hp : List.Perm l₁ l₂)
    (h₁ : List.Pairwise (fun a b => a ≥ b) l₁) (h₂ : List.Pairwise (fun a b => a ≥ b) l₂) :
    l₁ = l₂ :=
  List.eq_of_perm_of_sorted hp h₁ h₂

theorem scanDerivable_perm (E : Collaborators) (w₁ w₂ : Wallet)
    (hperm : List.Perm w₂.Address w₁.Address)
    (hkey : w₂.SvrMasterPrvKey = w₁.SvrMasterPrvKey) (hnet : w₂.net = w₁.net) :
    ScanDerivable E w₂ w₂.Address ↔ ScanDerivable E w₁ w₁.Address := by
  unfold ScanDerivable
  rw [hkey, hnet]
  exact ⟨fun h p hp => h p (hperm.mem_iff.mpr hp), fun h p hp => h p (hperm.mem_iff.mp hp)⟩

/-- C19. Take two wallets that hold the same address records in different iteration
orders (and the same key material), two implementations of `sort.Slice` that
meet the library contract, and one amount.  Then `Wallet.Unspents` fails in
both runs or in neither, and two successful runs return lists with the same
sequence of values, hence the same number of outputs and the same total. -/
theorem Unspents_deterministic (E : Collaborators) (S₁ S₂ : SliceSorter) (h₁ : S₁.Valid)
    (h₂ : S₂.Valid) (w₁ w₂ : Wallet) (hperm : List.Perm w₂.Address w₁.Address)
    (hkey : w₂.SvrMasterPrvKey = w₁.SvrMasterPrvKey) (hnet : w₂.net = w₁.net)
    (sendAmount : Nat) :
    ((∃ err, w₁.Unspents E S₁ sendAmount = .error err)
        ↔ (∃ err, w₂.Unspents E S₂ sendAmount = .error err))
      ∧ ∀ r₁ r₂, w₁.Unspents E S₁ sendAmount = .ok r₁ → w₂.Unspents E S₂ sendAmount = .ok r₂ →
          r₁.map (fun u => u.Value) = r₂.map (fun u => u.Value)
            ∧ r₁.length = r₂.length ∧ utxoTotal r₁ = utxoTotal r₂ := by
  constructor
  · rw [Unspents_error_iff_not_ok, Unspents_error_iff_not_ok, Unspents_succeeds_iff,
      Unspents_succeeds_iff, scanDerivable_perm E w₁ w₂ hperm hkey hnet,
      storedTotal_perm _ _ hperm]
  · intro r₁ r₂ hr₁ hr₂
    obtain ⟨utxos₁, _, hv₁, _, hrsp₁⟩ := Unspents_ok E S₁ w₁ sendAmount r₁ hr₁
    obtain ⟨utxos₂, _, hv₂, _, hrsp₂⟩ := Unspents_ok E S₂ w₂ sendAmount r₂ hr₂
    have hp₁ : List.Perm ((S₁.sort valueGreater utxos₁).map (fun u => u.Value))
        ((heldUnspents w₁.Address).map (fun u => u.Value)) := by
      rw [← hv₁]
      exact (h₁.perm valueGreater utxos₁).map _
    have hp₂ : List.Perm ((S₂.sort valueGreater utxos₂).map (fun u => u.Value))
        ((heldUnspents w₂.Address).map (fun u => u.Value)) := by
      rw [← hv₂]
      exact (h₂.perm valueGreater utxos₂).map _
    have hheld : List.Perm ((heldUnspents w₂.Address).map (fun u => u.Value))
        ((heldUnspents w₁.Address).map (fun u => u.Value)) :=
      (heldUnspents_perm _ _ hperm).map _
    have hsame : (S₁.sort valueGreater utxos₁).map (fun u => u.Value)
        = (S₂.sort valueGreater utxos₂).map (fun u => u.Value) :=
      sorted_values_unique _ _ (hp₁.trans (hp₂.trans hheld).symm)
        (List.pairwise_map.mpr (sorted_values S₁ h₁ utxos₁))
        (List.pairwise_map.mpr (sorted_values S₂ h₂ utxos₂))
    have hvals : r₁.map (fun u => u.Value) = r₂.map (fun u => u.Value) := by
      rw [hrsp₁, hrsp₂]
      exact patch_values sendAmount _ _ 0 hsame
    refine ⟨hvals, ?_, ?_⟩
    · have := congrArg List.length hvals
      simpa using this
    · unfold utxoTotal
      rw [hvals]

/-- Witness of C19: the example wallet iterated as `A, B` and as `B, A` yields the
5000 output for the amount 4000 in both orders. -/
theorem Unspents_deterministic_witness :
    exampleWallet.Unspents sampleCollaborators insertionSorter 4000 = .ok [exampleUtxoA]
      ∧ Wallet.Unspents sampleCollaborators insertionSorter
          { exampleWallet with Address := exampleWallet.Address.reverse } 4000
          = .ok [exampleUtxoA]
      ∧ [exampleUtxoA].map (fun u => u.Value) = [exampleUtxoA].map (fun u => u.Value)
      ∧ [exampleUtxoA].length = [exampleUtxoA].length
      ∧ utxoTotal [exampleUtxoA] = utxoTotal [exampleUtxoA] :=
  ⟨rfl, rfl,
    (Unspents_deterministic sampleCollaborators insertionSorter insertionSorter
      insertionSorter_valid insertionSorter_valid exampleWallet
      { exampleWallet with Address := exampleWallet.Address.reverse }
      (List.reverse_perm _) rfl rfl 4000).2 [exampleUtxoA] [exampleUtxoA] rfl rfl⟩

/-! ## The slice bounds of `Wallet.Txs` -/

/-- C20. The code departs from the claim at `Txs(1, 9223372036854775807)` on a wallet
holding 3 transactions: `offset + limit` wraps to `-9223372036854775808`, which
is not above the length 3, so the code evaluates
`txs[1 : -9223372036854775808]`, whose bounds do not satisfy
`0 ≤ low ≤ high ≤ len(txs)`, and the call panics. -/
theorem Txs_slice_bounds_fail :
    wrapInt64 (1 + 9223372036854775807) = -9223372036854775808
      ∧ ¬ (wrapInt64 (1 + 9223372036854775807) > 3)
      ∧ ¬ ((0 : Int) ≤ 1 ∧ (1 : Int) ≤ wrapInt64 (1 + 9223372036854775807)
            ∧ wrapInt64 (1 + 9223372036854775807) ≤ 3)
      ∧ sliceBetween [sampleTx "t1" true 1, sampleTx "t2" false 0, sampleTx "t3" true 2]
          1 (wrapInt64 (1 + 9223372036854775807)) = none
      ∧ historyWallet.Txs insertionSorter 1 9223372036854775807 = none :=
  ⟨by decide, by decide, by decide, rfl, rfl⟩

end ThreshWallet
